import Mathlib

/-!
Verification development for the borg-ncdu-analyzer source
(`borg_ncdu_analyzer.py`): a stream-to-tree builder that turns a flat
stream of JSON-lines filesystem records into an ncdu-compatible nested
tree document.

The Python objects are embedded as follows:
* JSON values are the inductive `Json`; Python `json.loads` is modelled
  by the executable parser `json_loads` (objects, arrays, strings,
  integers, booleans, null — the subset relevant to this program).
* `FSEntry` objects live in a flat store (`AState.entries`, index =
  object identity), so the aliasing created by `self._fs_cache` holding
  references to the same objects as `self._root_objects` and the `sub`
  lists is represented faithfully: `sub`, the root list and the cache
  hold store indices.
* Raising (`KeyError` from a failed dict/cache lookup, `json.loads`
  failure) is modelled with `Except`.
-/

/-- JSON values, as produced by Python `json.loads` (numbers restricted
to integers, which is the only kind this program's input carries). -/
inductive Json where
  | null
  | bool (b : Bool)
  | num (n : Int)
  | str (s : String)
  | arr (elems : List Json)
  | obj (fields : List (String × Json))

/-- Skip JSON whitespace. -/
def skipWs (cs : List Char) : List Char :=
  cs.dropWhile (fun c =>
    match c with
    | ' ' => true
    | '\n' => true
    | '\t' => true
    | '\r' => true
    | _ => false)

/-- Decode one string-escape character (the two-character escapes this
program's input can carry). -/
def unescape (c : Char) : Option Char :=
  match c with
  | '"' => some '"'
  | '\\' => some '\\'
  | '/' => some '/'
  | 'n' => some '\n'
  | 't' => some '\t'
  | 'r' => some '\r'
  | _ => none

/-- Parse the remainder of a JSON string literal (the opening quote has
already been consumed), accumulating characters in reverse. -/
def parseStrAux : List Char → List Char → Option (String × List Char)
  | acc, '"' :: rest => some (String.mk acc.reverse, rest)
  | acc, '\\' :: e :: rest =>
    match unescape e with
    | some c => parseStrAux (c :: acc) rest
    | none => none
  | acc, c :: rest => parseStrAux (c :: acc) rest
  | _, [] => none

/-- Digits to a natural number, leftmost first. -/
def digitsToNat (acc : Nat) : List Char → Nat
  | [] => acc
  | c :: rest => digitsToNat (acc * 10 + (c.toNat - '0'.toNat)) rest

/-- Parse a JSON integer literal. -/
def parseIntLit (cs : List Char) : Option (Int × List Char) :=
  let (neg, cs) := match cs with
    | '-' :: rest => (true, rest)
    | _ => (false, cs)
  let digits := cs.takeWhile (fun c => c.isDigit)
  let rest := cs.dropWhile (fun c => c.isDigit)
  if digits.isEmpty then none
  else
    let n : Int := Int.ofNat (digitsToNat 0 digits)
    some (if neg then -n else n, rest)

mutual

/-- Parse one JSON value; `fuel` bounds the nesting recursion. -/
def parseVal : Nat → List Char → Option (Json × List Char)
  | 0, _ => none
  | fuel + 1, cs =>
    match skipWs cs with
    | '"' :: rest => (parseStrAux [] rest).map (fun (s, r) => (Json.str s, r))
    | '\x7b' :: rest =>
      (match skipWs rest with
       | '\x7d' :: r => some (Json.obj [], r)
       | _ => (parseObjTail fuel (skipWs rest)).map (fun (fs, r) => (Json.obj fs, r)))
    | '[' :: rest =>
      (match skipWs rest with
       | ']' :: r => some (Json.arr [], r)
       | _ => (parseArrTail fuel (skipWs rest)).map (fun (xs, r) => (Json.arr xs, r)))
    | 't' :: 'r' :: 'u' :: 'e' :: rest => some (Json.bool true, rest)
    | 'f' :: 'a' :: 'l' :: 's' :: 'e' :: rest => some (Json.bool false, rest)
    | 'n' :: 'u' :: 'l' :: 'l' :: rest => some (Json.null, rest)
    | cs' => (parseIntLit cs').map (fun (n, r) => (Json.num n, r))

/-- Parse the members of a JSON array from the first element on. -/
def parseArrTail : Nat → List Char → Option (List Json × List Char)
  | 0, _ => none
  | fuel + 1, cs =>
    match parseVal fuel cs with
    | none => none
    | some (v, rest) =>
      match skipWs rest with
      | ',' :: rest' =>
        (parseArrTail fuel rest').map (fun (xs, r) => (v :: xs, r))
      | ']' :: rest' => some ([v], rest')
      | _ => none

/-- Parse the members of a JSON object from the first key on. -/
def parseObjTail : Nat → List Char → Option (List (String × Json) × List Char)
  | 0, _ => none
  | fuel + 1, cs =>
    match cs with
    | '"' :: rest =>
      match parseStrAux [] rest with
      | none => none
      | some (k, rest1) =>
        match skipWs rest1 with
        | ':' :: rest2 =>
          (match parseVal fuel (skipWs rest2) with
           | none => none
           | some (v, rest3) =>
             match skipWs rest3 with
             | ',' :: rest4 =>
               (parseObjTail fuel (skipWs rest4)).map (fun (fs, r) => ((k, v) :: fs, r))
             | '\x7d' :: rest4 => some ([(k, v)], rest4)
             | _ => none)
        | _ => none
    | _ => none

end

/-- Model of Python `json.loads`: parse the whole line, requiring only
trailing whitespace after the value. -/
def json_loads (line : String) : Option Json :=
  match parseVal (2 * line.length + 8) line.data with
  | some (j, rest) => if (skipWs rest).isEmpty then some j else none
  | none => none

/-! ## Path helpers (`path.split('/')`, `'/'.join`, `os.path.basename`,
`os.path.dirname`) -/

/-- `str.split('/')` on the character list: always returns at least one
(possibly empty) segment, like Python. -/
def splitCharsAux : List Char → List String
  | [] => [""]
  | c :: rest =>
    if c = '/' then "" :: splitCharsAux rest
    else
      match splitCharsAux rest with
      | s :: ss => String.mk (c :: s.data) :: ss
      | [] => [String.mk [c]]

/-- Python `path.split('/')`. -/
def splitSlash (p : String) : List String :=
  splitCharsAux p.data

/-- Python `'/'.join(parts)`. -/
def joinSlash : List String → String
  | [] => ""
  | [s] => s
  | s :: rest => s ++ "/" ++ joinSlash rest

/-- `posixpath.basename`: everything after the last slash, i.e. the last
`split('/')` segment. -/
def basename (p : String) : String :=
  (splitSlash p).getLastD ""

/-- `posixpath.dirname`: everything before the last slash, with trailing
slashes stripped unless the head consists only of slashes. -/
def dirname (p : String) : String :=
  let parts := splitSlash p
  let hd := parts.dropLast
  if hd = [] then ""
  else if hd.all (fun s => s = "") then String.mk (hd.map (fun _ => '/'))
  else joinSlash ((hd.reverse.dropWhile (fun s => s == "")).reverse)

/-- `iterate_path_parts` from the source: for a path of `n` segments,
yields `(join of first i segments, join of first i+1 segments)` for
`i = 0 .. n-1`. -/
def iterate_path_parts (path : String) : List (String × String) :=
  let p := splitSlash path
  (List.range p.length).map
    (fun i => (joinSlash (p.take i), joinSlash (p.take (i + 1))))

/-! ## Data model -/

/-- `FSEntry`: name, size (the raw JSON value the record carried, as
Python stores it), and the ordered child list. Children are store
indices into `AState.entries`, representing Python object references. -/
structure FSEntry where
  name : String
  size : Json
  sub : List Nat

/-- `FSEntry.from_filename(path, size)`: base name, given size, no
children (the Python default `size=0` is written `Json.num 0` at the
call sites that omit it). -/
def FSEntry.from_filename (path : String) (size : Json) : FSEntry :=
  ⟨basename path, size, []⟩

/-- Association-list write with Python-dict semantics: overwrite in
place if the key exists, else append. -/
def cacheWrite : List (String × Nat) → String → Nat → List (String × Nat)
  | [], k, v => [(k, v)]
  | (k', v') :: rest, k, v =>
    if k' = k then (k, v) :: rest else (k', v') :: cacheWrite rest k v

/-- Association-list lookup (keys are unique by construction). -/
def cacheRead : List (String × Nat) → String → Option Nat
  | [], _ => none
  | (k', v') :: rest, k => if k' = k then some v' else cacheRead rest k

/-- The `BorgAnalyzer` mutable state: the entry store (index = object
identity), `self._root_objects` and `self._fs_cache` as index lists. -/
structure AState where
  entries : List FSEntry
  rootObjects : List Nat
  fsCache : List (String × Nat)

/-- Number of allocated entries. -/
def AState.len (s : AState) : Nat := s.entries.length

/-- Allocate a fresh `FSEntry` object; its id is the store size. -/
def AState.alloc (s : AState) (e : FSEntry) : AState × Nat :=
  ({ s with entries := s.entries ++ [e] }, s.entries.length)

/-- `parent.add_entry(child)` on the stored object `pid`. -/
def AState.add_entry (s : AState) (pid cid : Nat) : AState :=
  match s.entries[pid]? with
  | some e => { s with entries := s.entries.set pid { e with sub := e.sub ++ [cid] } }
  | none => s

/-- `self._root_objects.append(id)`. -/
def AState.pushRoot (s : AState) (id : Nat) : AState :=
  { s with rootObjects := s.rootObjects ++ [id] }

/-- `self._fs_cache[k] = id`. -/
def AState.cacheSet (s : AState) (k : String) (id : Nat) : AState :=
  { s with fsCache := cacheWrite s.fsCache k id }

/-- `k in self._fs_cache` / `self._fs_cache[k]`. -/
def AState.cacheFind (s : AState) (k : String) : Option Nat :=
  cacheRead s.fsCache k

/-- The freshly constructed analyzer. -/
def initState : AState := ⟨[], [], []⟩

/-- Errors the Python code can raise per record. -/
inductive Err where
  | jsonError
  | keyError
  | typeError
deriving DecidableEq

/-- `record[k]` on a parsed JSON object: `KeyError` when the key is
missing (last occurrence wins, as in a Python dict), `TypeError` when
the value is not an object. -/
def jGet (j : Json) (k : String) : Except Err Json :=
  match j with
  | .obj fields =>
    match (fields.reverse.find? (fun f => f.1 == k)) with
    | some f => .ok f.2
    | none => .error .keyError
  | _ => .error .typeError

/-- Using a JSON value as a `str` path (a non-string would raise inside
`os.path.basename`). -/
def asStr : Json → Except Err String
  | .str s => .ok s
  | _ => .error .typeError

/-- Python `j == lit` for a string literal `lit`. -/
def isStrEq (j : Json) (lit : String) : Bool :=
  match j with
  | .str s => s == lit
  | _ => false

/-! ## The builder (`BorgAnalyzer`) -/

/-- One iteration of the `_process_new_dir_full_path` loop body for the
pair `(parent_path, part_path)`: skip if `part_path` is cached, else
create an empty entry, cache it, and attach it to the root list (empty
parent) or to the cached parent entry (a failed parent lookup would be
a `KeyError`). -/
def processPathPart (s : AState) (pp : String × String) : Except Err AState :=
  if (s.cacheFind pp.2).isSome then .ok s
  else
    let s1 := (s.alloc (FSEntry.from_filename pp.2 (Json.num 0))).1
    let id := s.len
    let s2 := s1.cacheSet pp.2 id
    if pp.1 = "" then .ok (s2.pushRoot id)
    else
      match s2.cacheFind pp.1 with
      | some pid => .ok (s2.add_entry pid id)
      | none => .error .keyError

/-- The `for parent_path, part_path in iterate_path_parts(path)` loop. -/
def processPathParts : AState → List (String × String) → Except Err AState
  | s, [] => .ok s
  | s, pp :: rest =>
    match processPathPart s pp with
    | .ok s' => processPathParts s' rest
    | .error e => .error e

/-- `BorgAnalyzer._process_new_dir_full_path`. -/
def process_new_dir_full_path (s : AState) (path : String) : Except Err AState :=
  processPathParts s (iterate_path_parts path)

/-- `BorgAnalyzer._process_new_dir_dataset`: one entry for the whole
path, cached under the full path and appended to the root list. -/
def process_new_dir_dataset (s : AState) (path : String) : AState :=
  let s1 := (s.alloc (FSEntry.from_filename path (Json.num 0))).1
  let id := s.len
  ((s1.cacheSet path id).pushRoot id)

/-- The `self._process_new_dir` dispatch chosen at construction. -/
def processNewDir (fullPath : Bool) (s : AState) (path : String) : Except Err AState :=
  if fullPath then process_new_dir_full_path s path
  else .ok (process_new_dir_dataset s path)

/-- The body of the `process_lines` loop for one parsed record,
following the source's evaluation order: fetch `path`, fetch `type`,
skip `"."`, fetch `size`, build the entry, branch on directory/file and
on the parent-directory cache lookup. -/
def processRecord (fullPath : Bool) (s : AState) (record : Json) : Except Err AState :=
  match jGet record "path" with
  | .error e => .error e
  | .ok pathJ =>
  match jGet record "type" with
  | .error e => .error e
  | .ok typeJ =>
  let isDir := isStrEq typeJ "d"
  if isStrEq pathJ "." then
    .ok s
  else
  match jGet record "size" with
  | .error e => .error e
  | .ok sizeJ =>
  match asStr pathJ with
  | .error e => .error e
  | .ok path =>
    let entry := FSEntry.from_filename path sizeJ
    let parent_dir := dirname path
    if isDir then
      match s.cacheFind parent_dir with
      | some pid =>
        let s1 := (s.alloc entry).1
        let id := s.len
        .ok ((s1.add_entry pid id).cacheSet path id)
      | none => processNewDir fullPath s path
    else
      if parent_dir = "" then
        let s1 := (s.alloc entry).1
        let id := s.len
        .ok ((s1.cacheSet path id).pushRoot id)
      else
        match s.cacheFind parent_dir with
        | some pid =>
          let s1 := (s.alloc entry).1
          let id := s.len
          .ok (s1.add_entry pid id)
        | none => .error .keyError

/-- `BorgAnalyzer.process_lines`: parse each line and process it;
a parse failure or record error aborts the whole run. -/
def process_lines (fullPath : Bool) : AState → List String → Except Err AState
  | s, [] => .ok s
  | s, line :: rest =>
    match json_loads line with
    | none => .error .jsonError
    | some j =>
      match processRecord fullPath s j with
      | .ok s' => process_lines fullPath s' rest
      | .error e => .error e

/-! ## The serializer (`generate_ncdu_tree`) -/

/-- `entry_to_ncdu`: childless entries become a flat name/dsize object,
entries with children an array of a name-only object followed by the
serialized children. Store indices increase strictly from parent to
child, so fuel `s.len` suffices for every well-formed state. -/
def entry_to_ncdu (s : AState) : Nat → Nat → Json
  | 0, _ => Json.null
  | fuel + 1, id =>
    match s.entries[id]? with
    | none => Json.null
    | some e =>
      if e.sub.isEmpty then
        Json.obj [("name", Json.str e.name), ("dsize", e.size)]
      else
        Json.arr (Json.obj [("name", Json.str e.name)] :: e.sub.map (entry_to_ncdu s fuel))

/-- `BorgAnalyzer.generate_ncdu_tree`. -/
def generate_ncdu_tree (s : AState) : Json :=
  Json.arr [Json.num 1, Json.num 1, Json.obj [],
    Json.arr (Json.obj [("name", Json.str "/")] ::
      s.rootObjects.map (entry_to_ncdu s s.len))]

/-- `BorgAnalyzer.analyze`: fresh analyzer, process all lines, emit the
tree. -/
def analyze (lines : List String) (fullPath : Bool) : Except Err Json :=
  (process_lines fullPath initState lines).map generate_ncdu_tree

/-! ## Derived notions used by the verified properties -/

/-- The keys currently present in the Path Index. -/
def keysList (s : AState) : List String := s.fsCache.map Prod.fst

/-- How many times entry `id` occurs in children sequences over the
whole store (counting multiplicity inside each `sub` list). -/
def childCount (s : AState) (id : Nat) : Nat :=
  (s.entries.map (fun e => e.sub.count id)).sum

/-- All indices held by the state (cache values, root list, child
lists) refer to allocated entries. -/
def validRefs (s : AState) : Prop :=
  (∀ v ∈ s.fsCache.map Prod.snd, v < s.len) ∧
  (∀ r ∈ s.rootObjects, r < s.len) ∧
  (∀ e ∈ s.entries, ∀ c ∈ e.sub, c < s.len)

/-- Children always have a strictly larger store index than their
parent (children are allocated after the parent), so the child
relation has no cycles. -/
def edgesMono (s : AState) : Prop :=
  ∀ (p : Nat) (e : FSEntry), s.entries[p]? = some e → ∀ c ∈ e.sub, p < c

/-- Root entries occur in no children sequence; every other entry
occurs in exactly one. -/
def countsOk (s : AState) : Prop :=
  ∀ id, id < s.len →
    (id ∈ s.rootObjects → childCount s id = 0) ∧
    (id ∉ s.rootObjects → childCount s id = 1)

/-- The builder-state well-formedness invariant. -/
def stateWF (s : AState) : Prop := validRefs s ∧ edgesMono s ∧ countsOk s

/-- A path string that is non-empty and does not begin with the
separator character. -/
def goodPath (p : String) : Prop := p ≠ "" ∧ p.data.head? ≠ some '/'

/-- The pair list fed to the synthesis loop is chained: each pair's
parent component is the previous pair's part component, starting from
`prev`. -/
def chained : String → List (String × String) → Prop
  | _, [] => True
  | prev, pp :: rest => pp.1 = prev ∧ chained pp.2 rest

/-! ## Association-list (Path Index) lemmas -/

theorem cacheRead_write_self (c : List (String × Nat)) (k : String) (v : Nat) :
    cacheRead (cacheWrite c k v) k = some v := by
  induction c with
  | nil => simp [cacheWrite, cacheRead]
  | cons hd tl ih =>
    obtain ⟨k0, v0⟩ := hd
    by_cases hk : k0 = k
    · simp [cacheWrite, cacheRead, hk]
    · simp [cacheWrite, cacheRead, hk, ih]

theorem cacheRead_write_ne (c : List (String × Nat)) (k k' : String) (v : Nat)
    (h : k' ≠ k) : cacheRead (cacheWrite c k v) k' = cacheRead c k' := by
  induction c with
  | nil => simp [cacheWrite, cacheRead, Ne.symm h]
  | cons hd tl ih =>
    obtain ⟨k0, v0⟩ := hd
    by_cases hk : k0 = k
    · subst hk
      simp [cacheWrite, cacheRead, Ne.symm h]
    · by_cases hk' : k0 = k'
      · subst hk'
        simp [cacheWrite, cacheRead, hk]
      · simp [cacheWrite, cacheRead, hk, hk', ih]

theorem cacheRead_isSome_of_mem (c : List (String × Nat)) (k : String)
    (h : k ∈ c.map Prod.fst) : (cacheRead c k).isSome := by
  induction c with
  | nil => simp at h
  | cons hd tl ih =>
    obtain ⟨k0, v0⟩ := hd
    by_cases hk : k0 = k
    · simp [cacheRead, hk]
    · simp only [List.map_cons, List.mem_cons] at h
      simp only [cacheRead, if_neg hk]
      exact ih (h.resolve_left (fun hh => hk hh.symm))

theorem mem_of_cacheRead_some (c : List (String × Nat)) (k : String) (v : Nat)
    (h : cacheRead c k = some v) : k ∈ c.map Prod.fst := by
  induction c with
  | nil => simp [cacheRead] at h
  | cons hd tl ih =>
    obtain ⟨k0, v0⟩ := hd
    by_cases hk : k0 = k
    · simp [hk]
    · simp only [cacheRead, if_neg hk] at h
      simp only [List.map_cons, List.mem_cons]
      exact Or.inr (ih h)

theorem not_mem_of_cacheRead_none (c : List (String × Nat)) (k : String)
    (h : cacheRead c k = none) : k ∉ c.map Prod.fst := by
  intro hm
  have hs := cacheRead_isSome_of_mem c k hm
  rw [h] at hs
  simp at hs

theorem mem_keys_cacheWrite (c : List (String × Nat)) (k k' : String) (v : Nat)
    (h : k' ∈ c.map Prod.fst) : k' ∈ (cacheWrite c k v).map Prod.fst := by
  induction c with
  | nil => simp at h
  | cons hd tl ih =>
    obtain ⟨k0, v0⟩ := hd
    simp only [List.map_cons, List.mem_cons] at h
    by_cases hk : k0 = k
    · subst hk
      simpa [cacheWrite] using h
    · simp only [cacheWrite, if_neg hk, List.map_cons, List.mem_cons]
      rcases h with h | h
      · exact Or.inl h
      · exact Or.inr (ih h)

theorem mem_keys_cacheWrite_self (c : List (String × Nat)) (k : String) (v : Nat) :
    k ∈ (cacheWrite c k v).map Prod.fst := by
  induction c with
  | nil => simp [cacheWrite]
  | cons hd tl ih =>
    obtain ⟨k0, v0⟩ := hd
    by_cases hk : k0 = k
    · simp [cacheWrite, hk]
    · simp only [cacheWrite, if_neg hk, List.map_cons, List.mem_cons]
      exact Or.inr ih

theorem keys_cacheWrite_sub (c : List (String × Nat)) (k k' : String) (v : Nat)
    (h : k' ∈ (cacheWrite c k v).map Prod.fst) : k' = k ∨ k' ∈ c.map Prod.fst := by
  induction c with
  | nil => simpa [cacheWrite] using h
  | cons hd tl ih =>
    obtain ⟨k0, v0⟩ := hd
    by_cases hk : k0 = k
    · simp only [cacheWrite, if_pos hk, List.map_cons, List.mem_cons] at h
      rcases h with h | h
      · exact Or.inl h
      · exact Or.inr (by simp [h])
    · simp only [cacheWrite, if_neg hk, List.map_cons, List.mem_cons] at h
      rcases h with h | h
      · exact Or.inr (by simp [h])
      · rcases ih h with h | h
        · exact Or.inl h
        · exact Or.inr (by simp [h])

theorem values_cacheWrite_sub (c : List (String × Nat)) (k : String) (v v' : Nat)
    (h : v' ∈ (cacheWrite c k v).map Prod.snd) : v' = v ∨ v' ∈ c.map Prod.snd := by
  induction c with
  | nil => simpa [cacheWrite] using h
  | cons hd tl ih =>
    obtain ⟨k0, v0⟩ := hd
    by_cases hk : k0 = k
    · simp only [cacheWrite, if_pos hk, List.map_cons, List.mem_cons] at h
      rcases h with h | h
      · exact Or.inl h
      · exact Or.inr (by simp [h])
    · simp only [cacheWrite, if_neg hk, List.map_cons, List.mem_cons] at h
      rcases h with h | h
      · exact Or.inr (by simp [h])
      · rcases ih h with h | h
        · exact Or.inl h
        · exact Or.inr (by simp [h])

theorem mem_values_of_cacheRead_some (c : List (String × Nat)) (k : String) (v : Nat)
    (h : cacheRead c k = some v) : v ∈ c.map Prod.snd := by
  induction c with
  | nil => simp [cacheRead] at h
  | cons hd tl ih =>
    obtain ⟨k0, v0⟩ := hd
    by_cases hk : k0 = k
    · simp only [cacheRead, if_pos hk, Option.some.injEq] at h
      simp [h]
    · simp only [cacheRead, if_neg hk] at h
      simp only [List.map_cons, List.mem_cons]
      exact Or.inr (ih h)

/-! ## Elementary state-operation lemmas -/

theorem add_entry_of_getElem (s : AState) (pid cid : Nat) (e : FSEntry)
    (h : s.entries[pid]? = some e) :
    s.add_entry pid cid =
      { s with entries := s.entries.set pid ⟨e.name, e.size, e.sub ++ [cid]⟩ } := by
  unfold AState.add_entry
  rw [h]

theorem add_entry_len (s : AState) (pid cid : Nat) : (s.add_entry pid cid).len = s.len := by
  unfold AState.add_entry
  cases h : s.entries[pid]? with
  | none => rfl
  | some e => simp [AState.len]

theorem cacheSet_pushRoot_comm (s : AState) (k : String) (v id : Nat) :
    (s.cacheSet k v).pushRoot id = (s.pushRoot id).cacheSet k v := rfl

theorem cacheSet_add_entry_comm (s : AState) (k : String) (v pid cid : Nat) :
    (s.cacheSet k v).add_entry pid cid = (s.add_entry pid cid).cacheSet k v := by
  unfold AState.add_entry AState.cacheSet
  cases h : s.entries[pid]? with
  | none => simp [h]
  | some e => simp [h]

/-! ## Child-occurrence counting -/

/-- `childCount` over a bare entry list. -/
def lcc (l : List FSEntry) (id : Nat) : Nat :=
  (l.map (fun e => e.sub.count id)).sum

theorem childCount_eq_lcc (s : AState) (id : Nat) : childCount s id = lcc s.entries id := rfl

theorem lcc_append_one (l : List FSEntry) (e : FSEntry) (id : Nat) :
    lcc (l ++ [e]) id = lcc l id + e.sub.count id := by
  simp [lcc]

theorem sum_map_set {α : Type} (f : α → Nat) :
    ∀ (l : List α) (i : Nat) (eo en : α), l[i]? = some eo →
      ((l.set i en).map f).sum + f eo = (l.map f).sum + f en := by
  intro l
  induction l with
  | nil => intro i eo en h; simp at h
  | cons hd tl ih =>
    intro i eo en h
    cases i with
    | zero =>
      simp only [List.getElem?_cons_zero, Option.some.injEq] at h
      subst h
      simp only [List.set_cons_zero, List.map_cons, List.sum_cons]
      omega
    | succ j =>
      simp only [List.getElem?_cons_succ] at h
      simp only [List.set_cons_succ, List.map_cons, List.sum_cons]
      have := ih j eo en h
      omega

theorem lcc_set_push (l : List FSEntry) (i : Nat) (eo : FSEntry) (cid id : Nat)
    (h : l[i]? = some eo) :
    lcc (l.set i ⟨eo.name, eo.size, eo.sub ++ [cid]⟩) id =
      lcc l id + (if cid = id then 1 else 0) := by
  have key := sum_map_set (fun e => e.sub.count id) l i eo ⟨eo.name, eo.size, eo.sub ++ [cid]⟩ h
  have hproj : (fun (e : FSEntry) => e.sub.count id) ⟨eo.name, eo.size, eo.sub ++ [cid]⟩
      = eo.sub.count id + (if cid = id then 1 else 0) := by
    show List.count id (eo.sub ++ [cid]) = _
    rw [List.count_append]
    congr 1
    by_cases hcid : cid = id
    · subst hcid
      simp
    · rw [List.count_singleton]
      simp [hcid]
  have hproj2 : (fun (e : FSEntry) => e.sub.count id) eo = eo.sub.count id := rfl
  rw [hproj, hproj2] at key
  simp only [lcc]
  omega

theorem lcc_zero_of_lt (l : List FSEntry) (n id : Nat)
    (hl : ∀ e ∈ l, ∀ c ∈ e.sub, c < n) (hid : n ≤ id) : lcc l id = 0 := by
  apply List.sum_eq_zero
  intro x hx
  simp only [List.mem_map] at hx
  obtain ⟨e, he, rfl⟩ := hx
  rw [List.count_eq_zero]
  intro hc
  have := hl e he id hc
  omega

/-! ## Invariant preservation for the primitive transitions -/

theorem stateWF_cacheSet (s : AState) (k : String) (v : Nat)
    (hWF : stateWF s) (hv : v < s.len) : stateWF (s.cacheSet k v) := by
  obtain ⟨⟨hcv, hrv, hsv⟩, hmono, hcnt⟩ := hWF
  refine ⟨⟨?_, hrv, hsv⟩, hmono, hcnt⟩
  intro w hw
  rcases values_cacheWrite_sub s.fsCache k v w hw with rfl | hw'
  · exact hv
  · exact hcv w hw'

/-- Allocating a childless entry and appending it to the root list
preserves the invariant. -/
theorem stateWF_root (s : AState) (nm : String) (sz : Json)
    (hWF : stateWF s) : stateWF ((s.alloc ⟨nm, sz, []⟩).1.pushRoot s.len) := by
  obtain ⟨⟨hcv, hrv, hsv⟩, hmono, hcnt⟩ := hWF
  have hlen : ((s.alloc ⟨nm, sz, []⟩).1.pushRoot s.len).len = s.len + 1 := by
    simp [AState.alloc, AState.pushRoot, AState.len]
  refine ⟨⟨?_, ?_, ?_⟩, ?_, ?_⟩
  · intro v hv
    have := hcv v hv
    rw [hlen]
    omega
  · intro r hr
    rw [hlen]
    rcases List.mem_append.mp hr with hr | hr
    · have := hrv r hr
      omega
    · rw [List.mem_singleton] at hr
      omega
  · intro e he c hc
    rw [hlen]
    rcases List.mem_append.mp he with he | he
    · have := hsv e he c hc
      omega
    · rw [List.mem_singleton] at he
      subst he
      exact absurd hc (List.not_mem_nil c)
  · intro p e hp c hc
    by_cases hpn : p < s.len
    · rw [show ((s.alloc ⟨nm, sz, []⟩).1.pushRoot s.len).entries = s.entries ++ [⟨nm, sz, []⟩] from rfl,
        List.getElem?_append_left hpn] at hp
      exact hmono p e hp c hc
    · rw [show ((s.alloc ⟨nm, sz, []⟩).1.pushRoot s.len).entries = s.entries ++ [⟨nm, sz, []⟩] from rfl] at hp
      by_cases hpe : p = s.len
      · subst hpe
        rw [show (s.entries ++ [(⟨nm, sz, []⟩ : FSEntry)])[s.len]? =
              (s.entries ++ [(⟨nm, sz, []⟩ : FSEntry)])[s.entries.length]? from rfl,
          List.getElem?_concat_length] at hp
        cases hp
        exact absurd hc (List.not_mem_nil c)
      · have hge : (s.entries ++ [(⟨nm, sz, []⟩ : FSEntry)]).length ≤ p := by
          rw [List.length_append]
          simp only [List.length_cons, List.length_nil]
          have : s.len ≤ p := Nat.le_of_not_lt hpn
          rcases Nat.lt_or_ge p (s.len + 1) with h1 | h1
          · exact absurd (by omega : p = s.len) hpe
          · exact h1
        rw [List.getElem?_eq_none hge] at hp
        cases hp
  · intro id hid
    rw [hlen] at hid
    have hlc : childCount ((s.alloc ⟨nm, sz, []⟩).1.pushRoot s.len) id =
        lcc s.entries id := by
      rw [childCount_eq_lcc,
        show ((s.alloc ⟨nm, sz, []⟩).1.pushRoot s.len).entries = s.entries ++ [⟨nm, sz, []⟩] from rfl,
        lcc_append_one]
      simp
    have hroots : ((s.alloc ⟨nm, sz, []⟩).1.pushRoot s.len).rootObjects =
        s.rootObjects ++ [s.len] := rfl
    by_cases hle : id < s.len
    · constructor
      · intro hmem
        rw [hroots, List.mem_append] at hmem
        rcases hmem with hmem | hmem
        · rw [hlc, ← childCount_eq_lcc]
          exact (hcnt id hle).1 hmem
        · rw [List.mem_singleton] at hmem
          omega
      · intro hnmem
        rw [hroots, List.mem_append] at hnmem
        push_neg at hnmem
        rw [hlc, ← childCount_eq_lcc]
        exact (hcnt id hle).2 hnmem.1
    · have hide : id = s.len := by omega
      subst hide
      constructor
      · intro _
        rw [hlc]
        exact lcc_zero_of_lt s.entries s.len s.len hsv (Nat.le_refl _)
      · intro hnmem
        exact absurd (by rw [hroots, List.mem_append, List.mem_singleton]; exact Or.inr rfl) hnmem

/-- Allocating a childless entry and appending it as a child of the
already-allocated entry `pid` preserves the invariant. -/
theorem stateWF_attach (s : AState) (nm : String) (sz : Json) (pid : Nat)
    (hWF : stateWF s) (hpid : pid < s.len) :
    stateWF ((s.alloc ⟨nm, sz, []⟩).1.add_entry pid s.len) := by
  obtain ⟨⟨hcv, hrv, hsv⟩, hmono, hcnt⟩ := hWF
  have h0 : s.entries[pid]? = some s.entries[pid] := List.getElem?_eq_getElem hpid
  have hApid : ((s.alloc ⟨nm, sz, []⟩).1).entries[pid]? = some s.entries[pid] := by
    rw [show ((s.alloc ⟨nm, sz, []⟩).1).entries = s.entries ++ [⟨nm, sz, []⟩] from rfl,
      List.getElem?_append_left hpid]
    exact h0
  have he0mem : s.entries[pid] ∈ s.entries := List.getElem_mem hpid
  have hres : (s.alloc ⟨nm, sz, []⟩).1.add_entry pid s.len =
      AState.mk ((s.entries ++ [(⟨nm, sz, []⟩ : FSEntry)]).set pid
          ⟨s.entries[pid].name, s.entries[pid].size, s.entries[pid].sub ++ [s.len]⟩)
        s.rootObjects s.fsCache := by
    rw [add_entry_of_getElem _ _ _ _ hApid]
    rfl
  rw [hres]
  have hlenT : AState.len (AState.mk ((s.entries ++ [(⟨nm, sz, []⟩ : FSEntry)]).set pid
      ⟨s.entries[pid].name, s.entries[pid].size, s.entries[pid].sub ++ [s.len]⟩)
      s.rootObjects s.fsCache) = s.len + 1 := by
    simp [AState.len, List.length_set, List.length_append]
  refine ⟨⟨?_, ?_, ?_⟩, ?_, ?_⟩
  · intro v hv
    rw [hlenT]
    have := hcv v hv
    omega
  · intro r hr
    rw [hlenT]
    have := hrv r hr
    omega
  · intro e he c hc
    rw [hlenT]
    have he2 : e ∈ (s.entries ++ [(⟨nm, sz, []⟩ : FSEntry)]).set pid
        ⟨s.entries[pid].name, s.entries[pid].size, s.entries[pid].sub ++ [s.len]⟩ := he
    rcases List.mem_or_eq_of_mem_set he2 with he3 | he3
    · rcases List.mem_append.mp he3 with he4 | he4
      · have := hsv e he4 c hc
        omega
      · rw [List.mem_singleton] at he4
        subst he4
        exact absurd hc (List.not_mem_nil c)
    · subst he3
      rcases List.mem_append.mp hc with hc2 | hc2
      · have := hsv _ he0mem c hc2
        omega
      · rw [List.mem_singleton] at hc2
        omega
  · intro p e hp c hc
    have hp2 : ((s.entries ++ [(⟨nm, sz, []⟩ : FSEntry)]).set pid
        ⟨s.entries[pid].name, s.entries[pid].size, s.entries[pid].sub ++ [s.len]⟩)[p]? = some e := hp
    rw [List.getElem?_set] at hp2
    by_cases hpp : pid = p
    · subst hpp
      have hplt : pid < (s.entries ++ [(⟨nm, sz, []⟩ : FSEntry)]).length := by
        rw [List.length_append]
        simp only [List.length_cons, List.length_nil]
        simp only [AState.len] at hpid
        omega
      rw [if_pos rfl, if_pos hplt] at hp2
      cases hp2
      rcases List.mem_append.mp hc with hc2 | hc2
      · exact hmono pid _ h0 c hc2
      · rw [List.mem_singleton] at hc2
        omega
    · rw [if_neg hpp] at hp2
      by_cases hpn : p < s.len
      · rw [List.getElem?_append_left hpn] at hp2
        exact hmono p e hp2 c hc
      · by_cases hpe : p = s.len
        · subst hpe
          rw [show (s.entries ++ [(⟨nm, sz, []⟩ : FSEntry)])[s.len]? =
                (s.entries ++ [(⟨nm, sz, []⟩ : FSEntry)])[s.entries.length]? from rfl,
            List.getElem?_concat_length] at hp2
          cases hp2
          exact absurd hc (List.not_mem_nil c)
        · have hge : (s.entries ++ [(⟨nm, sz, []⟩ : FSEntry)]).length ≤ p := by
            rw [List.length_append]
            simp only [List.length_cons, List.length_nil]
            have hle : s.len ≤ p := Nat.le_of_not_lt hpn
            simp only [AState.len] at hle hpe
            omega
          rw [List.getElem?_eq_none hge] at hp2
          cases hp2
  · intro id hid
    rw [hlenT] at hid
    have hAappd : (s.entries ++ [(⟨nm, sz, []⟩ : FSEntry)])[pid]? = some s.entries[pid] := by
      rw [List.getElem?_append_left hpid]
      exact h0
    have hlc : lcc ((s.entries ++ [(⟨nm, sz, []⟩ : FSEntry)]).set pid
        ⟨s.entries[pid].name, s.entries[pid].size, s.entries[pid].sub ++ [s.len]⟩) id =
        lcc s.entries id + (if s.len = id then 1 else 0) := by
      rw [lcc_set_push _ _ _ _ _ hAappd, lcc_append_one]
      simp
    by_cases hle : id < s.len
    · rw [if_neg (by omega)] at hlc
      constructor
      · intro hmem
        show lcc _ id = 0
        rw [hlc]
        exact (hcnt id hle).1 hmem
      · intro hnmem
        show lcc _ id = 1
        rw [hlc]
        exact (hcnt id hle).2 hnmem
    · have hide : id = s.len := by omega
      subst hide
      rw [if_pos rfl] at hlc
      constructor
      · intro hmem
        have := hrv _ hmem
        omega
      · intro _
        show lcc _ s.len = 1
        rw [hlc, lcc_zero_of_lt s.entries s.len s.len hsv (Nat.le_refl _)]

theorem len_alloc_pushRoot (s : AState) (e : FSEntry) (id : Nat) :
    ((s.alloc e).1.pushRoot id).len = s.len + 1 := by
  simp [AState.alloc, AState.pushRoot, AState.len]

theorem len_alloc_add_entry (s : AState) (e : FSEntry) (pid cid : Nat) :
    ((s.alloc e).1.add_entry pid cid).len = s.len + 1 := by
  rw [add_entry_len]
  simp [AState.alloc, AState.len]

theorem stateWF_rootShape (s : AState) (nm : String) (sz : Json) (k : String)
    (hWF : stateWF s) :
    stateWF (((s.alloc ⟨nm, sz, []⟩).1.cacheSet k s.len).pushRoot s.len) := by
  rw [cacheSet_pushRoot_comm]
  apply stateWF_cacheSet _ _ _ (stateWF_root s nm sz hWF)
  rw [len_alloc_pushRoot]
  omega

theorem stateWF_childShape (s : AState) (nm : String) (sz : Json) (k : String) (pid : Nat)
    (hWF : stateWF s) (hpid : pid < s.len) :
    stateWF (((s.alloc ⟨nm, sz, []⟩).1.cacheSet k s.len).add_entry pid s.len) := by
  rw [cacheSet_add_entry_comm]
  apply stateWF_cacheSet _ _ _ (stateWF_attach s nm sz pid hWF hpid)
  rw [len_alloc_add_entry]
  omega

theorem stateWF_attachCacheShape (s : AState) (nm : String) (sz : Json) (k : String) (pid : Nat)
    (hWF : stateWF s) (hpid : pid < s.len) :
    stateWF (((s.alloc ⟨nm, sz, []⟩).1.add_entry pid s.len).cacheSet k s.len) := by
  apply stateWF_cacheSet _ _ _ (stateWF_attach s nm sz pid hWF hpid)
  rw [len_alloc_add_entry]
  omega

/-- Exhaustive characterization of one synthesis-loop iteration. -/
theorem processPathPart_cases (s : AState) (pp : String × String) :
    ((s.cacheFind pp.2).isSome = true ∧ processPathPart s pp = .ok s) ∨
    ((s.cacheFind pp.2).isSome = false ∧ pp.1 = "" ∧
      processPathPart s pp =
        .ok (((s.alloc (FSEntry.from_filename pp.2 (Json.num 0))).1.cacheSet pp.2
          s.len).pushRoot s.len)) ∨
    ((s.cacheFind pp.2).isSome = false ∧ pp.1 ≠ "" ∧
      ∃ pid, cacheRead (cacheWrite s.fsCache pp.2 s.len) pp.1 = some pid ∧
        processPathPart s pp =
          .ok (((s.alloc (FSEntry.from_filename pp.2 (Json.num 0))).1.cacheSet pp.2
            s.len).add_entry pid s.len)) ∨
    ((s.cacheFind pp.2).isSome = false ∧ pp.1 ≠ "" ∧
      cacheRead (cacheWrite s.fsCache pp.2 s.len) pp.1 = none ∧
      processPathPart s pp = .error .keyError) := by
  by_cases hfind : (s.cacheFind pp.2).isSome = true
  · left
    refine ⟨hfind, ?_⟩
    unfold processPathPart
    rw [if_pos hfind]
  · have hfind' : (s.cacheFind pp.2).isSome = false := by
      cases h : (s.cacheFind pp.2).isSome
      · rfl
      · exact absurd h hfind
    right
    by_cases hroot : pp.1 = ""
    · left
      refine ⟨hfind', hroot, ?_⟩
      unfold processPathPart
      rw [if_neg hfind, if_pos hroot]
    · cases hpar : cacheRead (cacheWrite s.fsCache pp.2 s.len) pp.1 with
      | some pid =>
        right
        left
        refine ⟨hfind', hroot, ⟨pid, rfl, ?_⟩⟩
        unfold processPathPart
        rw [if_neg hfind, if_neg hroot]
        have hc : ((s.alloc (FSEntry.from_filename pp.2 (Json.num 0))).1.cacheSet pp.2
            s.len).cacheFind pp.1 = some pid := hpar
        rw [hc]
      | none =>
        right
        right
        refine ⟨hfind', hroot, rfl, ?_⟩
        unfold processPathPart
        rw [if_neg hfind, if_neg hroot]
        have hc : ((s.alloc (FSEntry.from_filename pp.2 (Json.num 0))).1.cacheSet pp.2
            s.len).cacheFind pp.1 = none := hpar
        rw [hc]

theorem add_entry_fsCache (s : AState) (pid cid : Nat) :
    (s.add_entry pid cid).fsCache = s.fsCache := by
  unfold AState.add_entry
  cases h : s.entries[pid]? with
  | none => rfl
  | some e => rfl

theorem add_entry_rootObjects (s : AState) (pid cid : Nat) :
    (s.add_entry pid cid).rootObjects = s.rootObjects := by
  unfold AState.add_entry
  cases h : s.entries[pid]? with
  | none => rfl
  | some e => rfl

theorem isSome_false_eq_none {α : Type} {o : Option α} (h : o.isSome = false) : o = none := by
  cases o with
  | none => rfl
  | some v => simp at h

theorem processPathParts_cons (s : AState) (pp : String × String)
    (rest : List (String × String)) :
    processPathParts s (pp :: rest) =
      match processPathPart s pp with
      | .ok s2 => processPathParts s2 rest
      | .error e => .error e := rfl

theorem processPathParts_keys_mono :
    ∀ (pps : List (String × String)) (s s' : AState),
      processPathParts s pps = .ok s' → ∀ q ∈ keysList s, q ∈ keysList s' := by
  intro pps
  induction pps with
  | nil =>
    intro s s' h q hq
    cases h
    exact hq
  | cons pp rest ih =>
    intro s s' h q hq
    rcases processPathPart_cases s pp with ⟨h1, h2⟩ | ⟨h1, h2, h3⟩ |
      ⟨h1, h2, pid, h3, h4⟩ | ⟨h1, h2, h3, h4⟩
    · rw [processPathParts_cons, h2] at h
      exact ih s s' h q hq
    · rw [processPathParts_cons, h3] at h
      have h' : processPathParts (((s.alloc (FSEntry.from_filename pp.2
          (Json.num 0))).1.cacheSet pp.2 s.len).pushRoot s.len) rest = .ok s' := h
      refine ih _ s' h' q ?_
      show q ∈ (cacheWrite s.fsCache pp.2 s.len).map Prod.fst
      exact mem_keys_cacheWrite _ _ _ _ hq
    · rw [processPathParts_cons, h4] at h
      have h' : processPathParts (((s.alloc (FSEntry.from_filename pp.2
          (Json.num 0))).1.cacheSet pp.2 s.len).add_entry pid s.len) rest = .ok s' := h
      refine ih _ s' h' q ?_
      show q ∈ (((s.alloc (FSEntry.from_filename pp.2
          (Json.num 0))).1.cacheSet pp.2 s.len).add_entry pid s.len).fsCache.map Prod.fst
      rw [add_entry_fsCache]
      exact mem_keys_cacheWrite _ _ _ _ hq
    · rw [processPathParts_cons, h4] at h
      cases h

theorem processPathParts_total :
    ∀ (pps : List (String × String)) (prev : String) (s : AState),
      chained prev pps → (prev = "" ∨ prev ∈ keysList s) →
      ∃ s', processPathParts s pps = .ok s' := by
  intro pps
  induction pps with
  | nil =>
    intro prev s _ _
    exact ⟨s, rfl⟩
  | cons pp rest ih =>
    intro prev s hch hprev
    obtain ⟨hpp1, hch'⟩ := hch
    rcases processPathPart_cases s pp with ⟨h1, h2⟩ | ⟨h1, h2, h3⟩ |
      ⟨h1, h2, pid, h3, h4⟩ | ⟨h1, h2, h3, h4⟩
    · obtain ⟨v, hv⟩ := Option.isSome_iff_exists.mp h1
      have hmem : pp.2 ∈ keysList s := mem_of_cacheRead_some _ _ _ hv
      obtain ⟨s', hs'⟩ := ih pp.2 s hch' (Or.inr hmem)
      exact ⟨s', by rw [processPathParts_cons, h2]; exact hs'⟩
    · have hmem : pp.2 ∈ keysList (((s.alloc (FSEntry.from_filename pp.2
          (Json.num 0))).1.cacheSet pp.2 s.len).pushRoot s.len) :=
        mem_keys_cacheWrite_self s.fsCache pp.2 s.len
      obtain ⟨s', hs'⟩ := ih pp.2 _ hch' (Or.inr hmem)
      exact ⟨s', by rw [processPathParts_cons, h3]; exact hs'⟩
    · have hmem : pp.2 ∈ keysList (((s.alloc (FSEntry.from_filename pp.2
          (Json.num 0))).1.cacheSet pp.2 s.len).add_entry pid s.len) := by
        show pp.2 ∈ (((s.alloc (FSEntry.from_filename pp.2
          (Json.num 0))).1.cacheSet pp.2 s.len).add_entry pid s.len).fsCache.map Prod.fst
        rw [add_entry_fsCache]
        exact mem_keys_cacheWrite_self s.fsCache pp.2 s.len
      obtain ⟨s', hs'⟩ := ih pp.2 _ hch' (Or.inr hmem)
      exact ⟨s', by rw [processPathParts_cons, h4]; exact hs'⟩
    · exfalso
      have hprev' : prev ∈ keysList s := by
        rcases hprev with hprev | hprev
        · exact absurd (hpp1.trans hprev) h2
        · exact hprev
      have hmem : pp.1 ∈ keysList s := hpp1 ▸ hprev'
      have hmem2 : pp.1 ∈ (cacheWrite s.fsCache pp.2 s.len).map Prod.fst :=
        mem_keys_cacheWrite _ _ _ _ hmem
      have := cacheRead_isSome_of_mem _ _ hmem2
      rw [h3] at this
      simp at this

theorem processPathParts_wf :
    ∀ (pps : List (String × String)) (prev : String) (s s' : AState),
      chained prev pps → (prev = "" ∨ prev ∈ keysList s) → stateWF s →
      processPathParts s pps = .ok s' → stateWF s' := by
  intro pps
  induction pps with
  | nil =>
    intro prev s s' _ _ hWF h
    cases h
    exact hWF
  | cons pp rest ih =>
    intro prev s s' hch hprev hWF h
    obtain ⟨hpp1, hch'⟩ := hch
    rcases processPathPart_cases s pp with ⟨h1, h2⟩ | ⟨h1, h2, h3⟩ |
      ⟨h1, h2, pid, h3, h4⟩ | ⟨h1, h2, h3, h4⟩
    · rw [processPathParts_cons, h2] at h
      obtain ⟨v, hv⟩ := Option.isSome_iff_exists.mp h1
      exact ih pp.2 s s' hch' (Or.inr (mem_of_cacheRead_some _ _ _ hv)) hWF h
    · rw [processPathParts_cons, h3] at h
      have h' : processPathParts (((s.alloc (FSEntry.from_filename pp.2
          (Json.num 0))).1.cacheSet pp.2 s.len).pushRoot s.len) rest = .ok s' := h
      have hmem : pp.2 ∈ keysList (((s.alloc (FSEntry.from_filename pp.2
          (Json.num 0))).1.cacheSet pp.2 s.len).pushRoot s.len) := by
        show pp.2 ∈ (cacheWrite s.fsCache pp.2 s.len).map Prod.fst
        exact mem_keys_cacheWrite_self s.fsCache pp.2 s.len
      refine ih pp.2 _ s' hch' (Or.inr hmem) ?_ h'
      exact stateWF_rootShape s (basename pp.2) (Json.num 0) pp.2 hWF
    · rw [processPathParts_cons, h4] at h
      have h' : processPathParts (((s.alloc (FSEntry.from_filename pp.2
          (Json.num 0))).1.cacheSet pp.2 s.len).add_entry pid s.len) rest = .ok s' := h
      have hprev' : pp.1 ∈ keysList s := by
        rcases hprev with hp | hp
        · exact absurd (hpp1.trans hp) h2
        · exact hpp1 ▸ hp
      have hne : pp.1 ≠ pp.2 := by
        intro he
        have : pp.2 ∈ keysList s := he ▸ hprev'
        have := cacheRead_isSome_of_mem s.fsCache pp.2 this
        rw [show cacheRead s.fsCache pp.2 = s.cacheFind pp.2 from rfl, h1] at this
        simp at this
      have hread : cacheRead s.fsCache pp.1 = some pid := by
        rw [← cacheRead_write_ne s.fsCache pp.2 pp.1 s.len hne]
        exact h3
      have hpid : pid < s.len :=
        hWF.1.1 pid (mem_values_of_cacheRead_some _ _ _ hread)
      have hmem : pp.2 ∈ keysList (((s.alloc (FSEntry.from_filename pp.2
          (Json.num 0))).1.cacheSet pp.2 s.len).add_entry pid s.len) := by
        show pp.2 ∈ (((s.alloc (FSEntry.from_filename pp.2
          (Json.num 0))).1.cacheSet pp.2 s.len).add_entry pid s.len).fsCache.map Prod.fst
        rw [add_entry_fsCache]
        exact mem_keys_cacheWrite_self s.fsCache pp.2 s.len
      refine ih pp.2 _ s' hch' (Or.inr hmem) ?_ h'
      exact stateWF_childShape s (basename pp.2) (Json.num 0) pp.2 pid hWF hpid
    · rw [processPathParts_cons, h4] at h
      cases h

theorem processPathParts_readStable :
    ∀ (pps : List (String × String)) (s s' : AState),
      processPathParts s pps = .ok s' →
      ∀ q, q ∈ keysList s → s'.cacheFind q = s.cacheFind q := by
  intro pps
  induction pps with
  | nil =>
    intro s s' h q hq
    cases h
    rfl
  | cons pp rest ih =>
    intro s s' h q hq
    rcases processPathPart_cases s pp with ⟨h1, h2⟩ | ⟨h1, h2, h3⟩ |
      ⟨h1, h2, pid, h3, h4⟩ | ⟨h1, h2, h3, h4⟩
    · rw [processPathParts_cons, h2] at h
      exact ih s s' h q hq
    · rw [processPathParts_cons, h3] at h
      have h' : processPathParts (((s.alloc (FSEntry.from_filename pp.2
          (Json.num 0))).1.cacheSet pp.2 s.len).pushRoot s.len) rest = .ok s' := h
      have hq2 : q ∈ (cacheWrite s.fsCache pp.2 s.len).map Prod.fst :=
        mem_keys_cacheWrite _ _ _ _ hq
      have hqne : q ≠ pp.2 := by
        intro he
        have := cacheRead_isSome_of_mem s.fsCache pp.2 (he ▸ hq)
        rw [show cacheRead s.fsCache pp.2 = s.cacheFind pp.2 from rfl, h1] at this
        simp at this
      have hstep := ih _ s' h' q hq2
      rw [hstep]
      show cacheRead (cacheWrite s.fsCache pp.2 s.len) q = s.cacheFind q
      exact cacheRead_write_ne s.fsCache pp.2 q s.len hqne
    · rw [processPathParts_cons, h4] at h
      have h' : processPathParts (((s.alloc (FSEntry.from_filename pp.2
          (Json.num 0))).1.cacheSet pp.2 s.len).add_entry pid s.len) rest = .ok s' := h
      have hq2 : q ∈ keysList (((s.alloc (FSEntry.from_filename pp.2
          (Json.num 0))).1.cacheSet pp.2 s.len).add_entry pid s.len) := by
        show q ∈ (((s.alloc (FSEntry.from_filename pp.2
          (Json.num 0))).1.cacheSet pp.2 s.len).add_entry pid s.len).fsCache.map Prod.fst
        rw [add_entry_fsCache]
        exact mem_keys_cacheWrite _ _ _ _ hq
      have hqne : q ≠ pp.2 := by
        intro he
        have := cacheRead_isSome_of_mem s.fsCache pp.2 (he ▸ hq)
        rw [show cacheRead s.fsCache pp.2 = s.cacheFind pp.2 from rfl, h1] at this
        simp at this
      have hstep := ih _ s' h' q hq2
      rw [hstep]
      show cacheRead ((((s.alloc (FSEntry.from_filename pp.2
          (Json.num 0))).1.cacheSet pp.2 s.len).add_entry pid s.len).fsCache) q = s.cacheFind q
      rw [add_entry_fsCache]
      exact cacheRead_write_ne s.fsCache pp.2 q s.len hqne
    · rw [processPathParts_cons, h4] at h
      cases h

theorem add_entry_grow (s : AState) (pid cid : Nat) :
    ∀ (i : Nat) (e : FSEntry), s.entries[i]? = some e →
      ∃ e', (s.add_entry pid cid).entries[i]? = some e' ∧
        e'.name = e.name ∧ e'.size = e.size := by
  intro i e hi
  unfold AState.add_entry
  cases h : s.entries[pid]? with
  | none => exact ⟨e, hi, rfl, rfl⟩
  | some e0 =>
    by_cases hip : pid = i
    · subst hip
      rw [hi] at h
      cases h
      refine ⟨⟨e.name, e.size, e.sub ++ [cid]⟩, ?_, rfl, rfl⟩
      show (s.entries.set pid _)[pid]? = _
      rw [List.getElem?_set]
      rw [if_pos rfl, if_pos (by
        have := List.getElem?_eq_some.mp hi
        exact this.1)]
    · refine ⟨e, ?_, rfl, rfl⟩
      show (s.entries.set pid _)[i]? = _
      rw [List.getElem?_set, if_neg hip]
      exact hi

theorem append_grow (l : List FSEntry) (a : FSEntry) :
    ∀ (i : Nat) (e : FSEntry), l[i]? = some e → (l ++ [a])[i]? = some e := by
  intro i e hi
  rw [List.getElem?_append_left (List.getElem?_eq_some.mp hi).1]
  exact hi

/-- Along a successful synthesis run, existing entries keep their index,
name and size (only their child lists can grow), and the store only
grows. -/
theorem processPathParts_grow :
    ∀ (pps : List (String × String)) (s s' : AState),
      processPathParts s pps = .ok s' →
      s.len ≤ s'.len ∧
      ∀ (i : Nat) (e : FSEntry), s.entries[i]? = some e →
        ∃ e', s'.entries[i]? = some e' ∧ e'.name = e.name ∧ e'.size = e.size := by
  intro pps
  induction pps with
  | nil =>
    intro s s' h
    cases h
    exact ⟨Nat.le_refl _, fun i e hi => ⟨e, hi, rfl, rfl⟩⟩
  | cons pp rest ih =>
    intro s s' h
    rcases processPathPart_cases s pp with ⟨h1, h2⟩ | ⟨h1, h2, h3⟩ |
      ⟨h1, h2, pid, h3, h4⟩ | ⟨h1, h2, h3, h4⟩
    · rw [processPathParts_cons, h2] at h
      exact ih s s' h
    · rw [processPathParts_cons, h3] at h
      have h' : processPathParts (((s.alloc (FSEntry.from_filename pp.2
          (Json.num 0))).1.cacheSet pp.2 s.len).pushRoot s.len) rest = .ok s' := h
      obtain ⟨hle, hgrow⟩ := ih _ s' h'
      constructor
      · refine Nat.le_trans ?_ hle
        show s.len ≤ (s.entries ++ [FSEntry.from_filename pp.2 (Json.num 0)]).length
        rw [List.length_append]
        simp [AState.len]
      · intro i e hi
        refine hgrow i e ?_
        show (s.entries ++ [FSEntry.from_filename pp.2 (Json.num 0)])[i]? = some e
        exact append_grow _ _ i e hi
    · rw [processPathParts_cons, h4] at h
      have h' : processPathParts (((s.alloc (FSEntry.from_filename pp.2
          (Json.num 0))).1.cacheSet pp.2 s.len).add_entry pid s.len) rest = .ok s' := h
      obtain ⟨hle, hgrow⟩ := ih _ s' h'
      constructor
      · refine Nat.le_trans ?_ hle
        rw [add_entry_len]
        show s.len ≤ (s.entries ++ [FSEntry.from_filename pp.2 (Json.num 0)]).length
        rw [List.length_append]
        simp [AState.len]
      · intro i e hi
        have hstep := add_entry_grow (((s.alloc (FSEntry.from_filename pp.2
            (Json.num 0))).1.cacheSet pp.2 s.len)) pid s.len i e
          (by
            show (s.entries ++ [FSEntry.from_filename pp.2 (Json.num 0)])[i]? = some e
            exact append_grow _ _ i e hi)
        obtain ⟨e2, he2, hn2, hs2⟩ := hstep
        obtain ⟨e3, he3, hn3, hs3⟩ := hgrow i e2 he2
        exact ⟨e3, he3, hn3.trans hn2, hs3.trans hs2⟩
    · rw [processPathParts_cons, h4] at h
      cases h

/-- Every entry a successful synthesis run adds to the store has size 0
(the `Json.num 0` default of `FSEntry.from_filename`). -/
theorem processPathParts_sizes :
    ∀ (pps : List (String × String)) (s s' : AState),
      processPathParts s pps = .ok s' →
      ∀ (i : Nat) (e' : FSEntry), s'.entries[i]? = some e' →
        (∃ e, s.entries[i]? = some e ∧ e'.size = e.size) ∨ e'.size = Json.num 0 := by
  intro pps
  induction pps with
  | nil =>
    intro s s' h i e' hi
    cases h
    exact Or.inl ⟨e', hi, rfl⟩
  | cons pp rest ih =>
    intro s s' h i e' hi
    rcases processPathPart_cases s pp with ⟨h1, h2⟩ | ⟨h1, h2, h3⟩ |
      ⟨h1, h2, pid, h3, h4⟩ | ⟨h1, h2, h3, h4⟩
    · rw [processPathParts_cons, h2] at h
      exact ih s s' h i e' hi
    · rw [processPathParts_cons, h3] at h
      have h' : processPathParts (((s.alloc (FSEntry.from_filename pp.2
          (Json.num 0))).1.cacheSet pp.2 s.len).pushRoot s.len) rest = .ok s' := h
      rcases ih _ s' h' i e' hi with ⟨e2, he2, hs2⟩ | hz
      · have he2' : (s.entries ++ [FSEntry.from_filename pp.2 (Json.num 0)])[i]? = some e2 := he2
        by_cases hilt : i < s.entries.length
        · rw [List.getElem?_append_left hilt] at he2'
          exact Or.inl ⟨e2, he2', hs2⟩
        · by_cases hie : i = s.entries.length
          · subst hie
            rw [List.getElem?_concat_length] at he2'
            cases he2'
            exact Or.inr hs2
          · rw [List.getElem?_eq_none (by rw [List.length_append]; simp; omega)] at he2'
            cases he2'
      · exact Or.inr hz
    · rw [processPathParts_cons, h4] at h
      have h' : processPathParts (((s.alloc (FSEntry.from_filename pp.2
          (Json.num 0))).1.cacheSet pp.2 s.len).add_entry pid s.len) rest = .ok s' := h
      rcases ih _ s' h' i e' hi with ⟨e2, he2, hs2⟩ | hz
      · -- trace the entry through add_entry and the append
        have hmid : ∃ em, (s.entries ++ [FSEntry.from_filename pp.2 (Json.num 0)])[i]? = some em
            ∧ e2.size = em.size := by
          have he2' : ((((s.alloc (FSEntry.from_filename pp.2
              (Json.num 0))).1.cacheSet pp.2 s.len).add_entry pid s.len)).entries[i]? =
              some e2 := he2
          unfold AState.add_entry at he2'
          cases hm : (((s.alloc (FSEntry.from_filename pp.2
              (Json.num 0))).1.cacheSet pp.2 s.len)).entries[pid]? with
          | none =>
            rw [hm] at he2'
            exact ⟨e2, he2', rfl⟩
          | some e0 =>
            rw [hm] at he2'
            by_cases hip : pid = i
            · subst hip
              have he2'' : ((((s.alloc (FSEntry.from_filename pp.2
                  (Json.num 0))).1.cacheSet pp.2 s.len)).entries.set pid
                  ⟨e0.name, e0.size, e0.sub ++ [s.len]⟩)[pid]? = some e2 := he2'
              rw [List.getElem?_set, if_pos rfl,
                if_pos (by exact (List.getElem?_eq_some.mp hm).1)] at he2''
              cases he2''
              exact ⟨e0, hm, rfl⟩
            · have he2'' : ((((s.alloc (FSEntry.from_filename pp.2
                  (Json.num 0))).1.cacheSet pp.2 s.len)).entries.set pid
                  ⟨e0.name, e0.size, e0.sub ++ [s.len]⟩)[i]? = some e2 := he2'
              rw [List.getElem?_set, if_neg hip] at he2''
              exact ⟨e2, he2'', rfl⟩
        obtain ⟨em, hem, hsm⟩ := hmid
        by_cases hilt : i < s.entries.length
        · rw [List.getElem?_append_left hilt] at hem
          exact Or.inl ⟨em, hem, hs2.trans hsm⟩
        · by_cases hie : i = s.entries.length
          · subst hie
            rw [List.getElem?_concat_length] at hem
            cases hem
            exact Or.inr (hs2.trans hsm)
          · rw [List.getElem?_eq_none (by rw [List.length_append]; simp; omega)] at hem
            cases hem
      · exact Or.inr hz
    · rw [processPathParts_cons, h4] at h
      cases h

/-! ## The synthesis pair list is chained and, for clean paths, its part
components are non-empty -/

theorem chained_range (parts : List String) :
    ∀ (k i : Nat), chained (joinSlash (parts.take i))
      ((List.range' i k).map
        (fun j => (joinSlash (parts.take j), joinSlash (parts.take (j + 1))))) := by
  intro k
  induction k with
  | zero =>
    intro i
    simp [chained]
  | succ k ih =>
    intro i
    rw [List.range'_succ]
    exact ⟨rfl, ih (i + 1)⟩

theorem chained_iterate (path : String) : chained "" (iterate_path_parts path) := by
  show chained "" ((List.range (splitSlash path).length).map
    (fun i => (joinSlash ((splitSlash path).take i),
      joinSlash ((splitSlash path).take (i + 1)))))
  rw [List.range_eq_range']
  exact chained_range (splitSlash path) (splitSlash path).length 0

theorem process_new_dir_full_path_total (s : AState) (path : String) :
    ∃ s', process_new_dir_full_path s path = .ok s' :=
  processPathParts_total _ "" s (chained_iterate path) (Or.inl rfl)

theorem process_new_dir_full_path_wf (s s' : AState) (path : String) (hWF : stateWF s)
    (h : process_new_dir_full_path s path = .ok s') : stateWF s' :=
  processPathParts_wf _ "" s s' (chained_iterate path) (Or.inl rfl) hWF h

theorem splitCharsAux_ne_nil : ∀ (l : List Char), splitCharsAux l ≠ [] := by
  intro l
  induction l with
  | nil => simp [splitCharsAux]
  | cons c rest ih =>
    unfold splitCharsAux
    by_cases hc : c = '/'
    · simp [hc]
    · rw [if_neg hc]
      cases hsp : splitCharsAux rest with
      | nil => simp
      | cons s ss => simp

theorem splitCharsAux_head_ne (l : List Char) (hne : l ≠ [])
    (hh : l.head? ≠ some '/') :
    ∃ h t, splitCharsAux l = h :: t ∧ h ≠ "" := by
  cases l with
  | nil => exact absurd rfl hne
  | cons c rest =>
    have hc : c ≠ '/' := by
      intro he
      exact hh (by rw [he]; rfl)
    unfold splitCharsAux
    rw [if_neg hc]
    cases hsp : splitCharsAux rest with
    | nil => exact absurd hsp (splitCharsAux_ne_nil rest)
    | cons s ss =>
      refine ⟨String.mk (c :: s.data), ss, rfl, ?_⟩
      intro he
      have : (c :: s.data) = ([] : List Char) := congrArg String.data he
      cases this

theorem joinSlash_cons_ne (h : String) (t : List String) (hne : h ≠ "") :
    joinSlash (h :: t) ≠ "" := by
  cases t with
  | nil => exact hne
  | cons t0 ts =>
    show h ++ "/" ++ joinSlash (t0 :: ts) ≠ ""
    intro he
    have hl := congrArg String.length he
    rw [String.length_append, String.length_append] at hl
    have h1 : ("/" : String).length = 1 := rfl
    have h0 : ("" : String).length = 0 := rfl
    have hpos : 0 < h.length := by
      cases hd : h.data with
      | nil =>
        exfalso
        apply hne
        cases h with
        | mk l => cases hd; rfl
      | cons a as =>
        show 0 < h.data.length
        rw [hd]
        simp
    omega

theorem data_ne_nil_of_ne_empty (p : String) (hne : p ≠ "") : p.data ≠ [] := by
  intro hd
  apply hne
  cases p with
  | mk l => cases hd; rfl

theorem goodPath_take_ne (p : String) (hp : goodPath p) :
    ∀ i, joinSlash ((splitSlash p).take (i + 1)) ≠ "" := by
  intro i
  obtain ⟨hne, hh⟩ := hp
  obtain ⟨h, t, hsp, hhne⟩ :=
    splitCharsAux_head_ne p.data (data_ne_nil_of_ne_empty p hne) hh
  show joinSlash ((splitCharsAux p.data).take (i + 1)) ≠ ""
  rw [hsp, List.take_succ_cons]
  exact joinSlash_cons_ne h _ hhne

theorem iterate_snd_ne (p : String) (hp : goodPath p) :
    ∀ pp ∈ iterate_path_parts p, pp.2 ≠ "" := by
  intro pp hmem
  have hmem' : pp ∈ (List.range (splitSlash p).length).map
      (fun i => (joinSlash ((splitSlash p).take i),
        joinSlash ((splitSlash p).take (i + 1)))) := hmem
  rw [List.mem_map] at hmem'
  obtain ⟨j, _, rfl⟩ := hmem'
  exact goodPath_take_ne p hp j

theorem processPathParts_keysGood :
    ∀ (pps : List (String × String)) (s s' : AState),
      (∀ pp ∈ pps, pp.2 ≠ "") → (∀ k ∈ keysList s, k ≠ "") →
      processPathParts s pps = .ok s' → ∀ k ∈ keysList s', k ≠ "" := by
  intro pps
  induction pps with
  | nil =>
    intro s s' _ hk h
    cases h
    exact hk
  | cons pp rest ih =>
    intro s s' hpp hk h
    have hpp2 : pp.2 ≠ "" := hpp pp (List.mem_cons_self pp rest)
    have hpprest : ∀ q ∈ rest, q.2 ≠ "" := fun q hq => hpp q (List.mem_cons_of_mem pp hq)
    rcases processPathPart_cases s pp with ⟨h1, h2⟩ | ⟨h1, h2, h3⟩ |
      ⟨h1, h2, pid, h3, h4⟩ | ⟨h1, h2, h3, h4⟩
    · rw [processPathParts_cons, h2] at h
      exact ih s s' hpprest hk h
    · rw [processPathParts_cons, h3] at h
      have h' : processPathParts (((s.alloc (FSEntry.from_filename pp.2
          (Json.num 0))).1.cacheSet pp.2 s.len).pushRoot s.len) rest = .ok s' := h
      refine ih _ s' hpprest ?_ h'
      intro k hkm
      have hkm' : k ∈ (cacheWrite s.fsCache pp.2 s.len).map Prod.fst := hkm
      rcases keys_cacheWrite_sub _ _ _ _ hkm' with rfl | hkm''
      · exact hpp2
      · exact hk k hkm''
    · rw [processPathParts_cons, h4] at h
      have h' : processPathParts (((s.alloc (FSEntry.from_filename pp.2
          (Json.num 0))).1.cacheSet pp.2 s.len).add_entry pid s.len) rest = .ok s' := h
      refine ih _ s' hpprest ?_ h'
      intro k hkm
      have hkm' : k ∈ ((((s.alloc (FSEntry.from_filename pp.2
          (Json.num 0))).1.cacheSet pp.2 s.len).add_entry pid s.len)).fsCache.map
          Prod.fst := hkm
      rw [add_entry_fsCache] at hkm'
      rcases keys_cacheWrite_sub _ _ _ _ hkm' with rfl | hkm''
      · exact hpp2
      · exact hk k hkm''
    · rw [processPathParts_cons, h4] at h
      cases h

/-! ## Invariant preservation for whole records and runs -/

theorem process_new_dir_dataset_wf (s : AState) (path : String) (hWF : stateWF s) :
    stateWF (process_new_dir_dataset s path) :=
  stateWF_rootShape s (basename path) (Json.num 0) path hWF

theorem processNewDir_wf (fullPath : Bool) (s s' : AState) (path : String)
    (hWF : stateWF s) (h : processNewDir fullPath s path = .ok s') : stateWF s' := by
  unfold processNewDir at h
  cases fullPath with
  | true =>
    rw [if_pos rfl] at h
    exact process_new_dir_full_path_wf s s' path hWF h
  | false =>
    rw [if_neg (by simp)] at h
    cases h
    exact process_new_dir_dataset_wf s path hWF

theorem processRecord_wf (fullPath : Bool) (s s' : AState) (j : Json)
    (hWF : stateWF s) (h : processRecord fullPath s j = .ok s') : stateWF s' := by
  unfold processRecord at h
  cases hp : jGet j "path" with
  | error e =>
    rw [hp] at h
    cases h
  | ok pathJ =>
    rw [hp] at h
    cases ht : jGet j "type" with
    | error e =>
      rw [ht] at h
      cases h
    | ok typeJ =>
      rw [ht] at h
      by_cases hdot : isStrEq pathJ "." = true
      · simp only [hdot, if_true] at h
        cases h
        exact hWF
      · simp only [hdot, if_false, Bool.false_eq_true] at h
        cases hz : jGet j "size" with
        | error e =>
          rw [hz] at h
          cases h
        | ok sizeJ =>
          rw [hz] at h
          cases hs : asStr pathJ with
          | error e =>
            rw [hs] at h
            cases h
          | ok path =>
            rw [hs] at h
            simp only at h
            by_cases hdir : isStrEq typeJ "d" = true
            · simp only [hdir, if_true] at h
              cases hcf : s.cacheFind (dirname path) with
              | some pid =>
                rw [hcf] at h
                cases h
                have hpid : pid < s.len :=
                  hWF.1.1 pid (mem_values_of_cacheRead_some _ _ _ hcf)
                exact stateWF_attachCacheShape s (basename path) sizeJ path pid hWF hpid
              | none =>
                rw [hcf] at h
                exact processNewDir_wf fullPath s s' path hWF h
            · simp only [hdir, if_false, Bool.false_eq_true] at h
              by_cases hpd : dirname path = ""
              · simp only [hpd, if_true] at h
                cases h
                exact stateWF_rootShape s (basename path) sizeJ path hWF
              · simp only [hpd, if_false] at h
                cases hcf : s.cacheFind (dirname path) with
                | some pid =>
                  rw [hcf] at h
                  cases h
                  have hpid : pid < s.len :=
                    hWF.1.1 pid (mem_values_of_cacheRead_some _ _ _ hcf)
                  exact stateWF_attach s (basename path) sizeJ pid hWF hpid
                | none =>
                  rw [hcf] at h
                  cases h

theorem stateWF_init : stateWF initState := by
  refine ⟨⟨?_, ?_, ?_⟩, ?_, ?_⟩
  · intro v hv
    simp [initState] at hv
  · intro r hr
    simp [initState] at hr
  · intro e he c hc
    simp [initState] at he
  · intro p e hp c hc
    simp [initState] at hp
  · intro id hid
    simp [initState, AState.len] at hid

theorem process_lines_cons (fullPath : Bool) (s : AState) (line : String)
    (rest : List String) :
    process_lines fullPath s (line :: rest) =
      match json_loads line with
      | none => .error .jsonError
      | some j =>
        match processRecord fullPath s j with
        | .ok s' => process_lines fullPath s' rest
        | .error e => .error e := rfl

theorem process_lines_wf :
    ∀ (lines : List String) (fullPath : Bool) (s s' : AState),
      stateWF s → process_lines fullPath s lines = .ok s' → stateWF s' := by
  intro lines
  induction lines with
  | nil =>
    intro fullPath s s' hWF h
    cases h
    exact hWF
  | cons line rest ih =>
    intro fullPath s s' hWF h
    rw [process_lines_cons] at h
    cases hl : json_loads line with
    | none =>
      rw [hl] at h
      cases h
    | some j =>
      rw [hl] at h
      have h2 : (match processRecord fullPath s j with
        | .ok s2 => process_lines fullPath s2 rest
        | .error e => .error e) = .ok s' := h
      cases hr : processRecord fullPath s j with
      | error e =>
        rw [hr] at h2
        cases h2
      | ok s2 =>
        rw [hr] at h2
        exact ih fullPath s2 s' (processRecord_wf fullPath s s2 j hWF hr) h2

/-! ## Record-level branch equations -/

/-- A record whose `path` field equals the string `"."` is skipped:
the state is returned unchanged (the `type` field must exist, since the
source reads it before the skip test). -/
theorem processRecord_dot (fullPath : Bool) (s : AState) (j : Json)
    (pathJ typeJ : Json) (hp : jGet j "path" = .ok pathJ)
    (ht : jGet j "type" = .ok typeJ) (hdot : isStrEq pathJ "." = true) :
    processRecord fullPath s j = .ok s := by
  unfold processRecord
  rw [hp, ht]
  simp only [hdot, if_true]

/-- The full branch structure of `process_lines`' per-record body for a
non-skipped record with well-formed field accesses. -/
theorem processRecord_not_dot (fullPath : Bool) (s : AState) (j : Json)
    (pathJ typeJ sizeJ : Json) (path : String)
    (hp : jGet j "path" = .ok pathJ) (ht : jGet j "type" = .ok typeJ)
    (hdot : isStrEq pathJ "." = false) (hz : jGet j "size" = .ok sizeJ)
    (hs : asStr pathJ = .ok path) :
    processRecord fullPath s j =
      (if isStrEq typeJ "d" then
        match s.cacheFind (dirname path) with
        | some pid => .ok (((s.alloc (FSEntry.from_filename path
            sizeJ)).1.add_entry pid s.len).cacheSet path s.len)
        | none => processNewDir fullPath s path
      else if dirname path = "" then
        .ok (((s.alloc (FSEntry.from_filename path sizeJ)).1.cacheSet path
          s.len).pushRoot s.len)
      else
        match s.cacheFind (dirname path) with
        | some pid => .ok ((s.alloc (FSEntry.from_filename path
            sizeJ)).1.add_entry pid s.len)
        | none => .error .keyError) := by
  unfold processRecord
  rw [hp, ht, hz]
  simp only [hdot, Bool.false_eq_true, if_false]
  rw [hs]

/-! ## Run-level composition and the key-shape invariant -/

theorem process_lines_append (fullPath : Bool) :
    ∀ (pre : List String) (s s1 : AState) (rest : List String),
      process_lines fullPath s pre = .ok s1 →
      process_lines fullPath s (pre ++ rest) = process_lines fullPath s1 rest := by
  intro pre
  induction pre with
  | nil =>
    intro s s1 rest h
    cases h
    rfl
  | cons line tl ih =>
    intro s s1 rest h
    rw [process_lines_cons] at h
    rw [List.cons_append, process_lines_cons]
    cases hl : json_loads line with
    | none =>
      rw [hl] at h
      cases h
    | some j =>
      rw [hl] at h
      have h2 : (match processRecord fullPath s j with
        | .ok s2 => process_lines fullPath s2 tl
        | .error e => .error e) = .ok s1 := h
      show (match processRecord fullPath s j with
        | .ok s2 => process_lines fullPath s2 (tl ++ rest)
        | .error e => .error e) = process_lines fullPath s1 rest
      cases hr : processRecord fullPath s j with
      | error e =>
        rw [hr] at h2
        have h3 : (Except.error e : Except Err AState) = .ok s1 := h2
        cases h3
      | ok s2 =>
        rw [hr] at h2
        have h3 : process_lines fullPath s2 tl = .ok s1 := h2
        show process_lines fullPath s2 (tl ++ rest) = process_lines fullPath s1 rest
        exact ih s2 s1 rest h3

theorem processRecord_keysGood (fullPath : Bool) (s s' : AState) (j : Json)
    (hgood : ∀ pathJ, jGet j "path" = .ok pathJ →
      ∀ p, asStr pathJ = .ok p → goodPath p)
    (hk : ∀ k ∈ keysList s, k ≠ "")
    (h : processRecord fullPath s j = .ok s') : ∀ k ∈ keysList s', k ≠ "" := by
  unfold processRecord at h
  cases hp : jGet j "path" with
  | error e =>
    rw [hp] at h
    cases h
  | ok pathJ =>
    rw [hp] at h
    cases ht : jGet j "type" with
    | error e =>
      rw [ht] at h
      cases h
    | ok typeJ =>
      rw [ht] at h
      by_cases hdot : isStrEq pathJ "." = true
      · simp only [hdot, if_true] at h
        cases h
        exact hk
      · simp only [hdot, if_false, Bool.false_eq_true] at h
        cases hz : jGet j "size" with
        | error e =>
          rw [hz] at h
          cases h
        | ok sizeJ =>
          rw [hz] at h
          cases hs : asStr pathJ with
          | error e =>
            rw [hs] at h
            cases h
          | ok path =>
            rw [hs] at h
            simp only at h
            have hgp : goodPath path := hgood pathJ hp path hs
            have hpne : path ≠ "" := hgp.1
            by_cases hdir : isStrEq typeJ "d" = true
            · simp only [hdir, if_true] at h
              cases hcf : s.cacheFind (dirname path) with
              | some pid =>
                rw [hcf] at h
                cases h
                intro k hkm
                have hkm' : k ∈ (cacheWrite (((s.alloc (FSEntry.from_filename path
                    sizeJ)).1.add_entry pid s.len)).fsCache path s.len).map
                    Prod.fst := hkm
                rw [add_entry_fsCache] at hkm'
                rcases keys_cacheWrite_sub _ _ _ _ hkm' with rfl | hkm''
                · exact hpne
                · exact hk k hkm''
              | none =>
                rw [hcf] at h
                unfold processNewDir at h
                cases fullPath with
                | true =>
                  rw [if_pos rfl] at h
                  exact processPathParts_keysGood _ s s' (iterate_snd_ne path hgp) hk h
                | false =>
                  rw [if_neg (by simp)] at h
                  cases h
                  intro k hkm
                  have hkm' : k ∈ (cacheWrite s.fsCache path s.len).map Prod.fst := hkm
                  rcases keys_cacheWrite_sub _ _ _ _ hkm' with rfl | hkm''
                  · exact hpne
                  · exact hk k hkm''
            · simp only [hdir, if_false, Bool.false_eq_true] at h
              by_cases hpd : dirname path = ""
              · simp only [hpd, if_true] at h
                cases h
                intro k hkm
                have hkm' : k ∈ (cacheWrite s.fsCache path s.len).map Prod.fst := hkm
                rcases keys_cacheWrite_sub _ _ _ _ hkm' with rfl | hkm''
                · exact hpne
                · exact hk k hkm''
              · simp only [hpd, if_false] at h
                cases hcf : s.cacheFind (dirname path) with
                | some pid =>
                  rw [hcf] at h
                  cases h
                  intro k hkm
                  have hkm' : k ∈ ((s.alloc (FSEntry.from_filename path
                      sizeJ)).1.add_entry pid s.len).fsCache.map Prod.fst := hkm
                  rw [add_entry_fsCache] at hkm'
                  exact hk k hkm'
                | none =>
                  rw [hcf] at h
                  cases h

theorem process_lines_keysGood :
    ∀ (lines : List String) (fullPath : Bool) (s s' : AState),
      (∀ l ∈ lines, ∀ j, json_loads l = some j →
        ∀ pathJ, jGet j "path" = .ok pathJ →
        ∀ p, asStr pathJ = .ok p → goodPath p) →
      (∀ k ∈ keysList s, k ≠ "") →
      process_lines fullPath s lines = .ok s' → ∀ k ∈ keysList s', k ≠ "" := by
  intro lines
  induction lines with
  | nil =>
    intro fullPath s s' _ hk h
    cases h
    exact hk
  | cons line rest ih =>
    intro fullPath s s' hgood hk h
    rw [process_lines_cons] at h
    cases hl : json_loads line with
    | none =>
      rw [hl] at h
      cases h
    | some j =>
      rw [hl] at h
      have h2 : (match processRecord fullPath s j with
        | .ok s2 => process_lines fullPath s2 rest
        | .error e => .error e) = .ok s' := h
      cases hr : processRecord fullPath s j with
      | error e =>
        rw [hr] at h2
        cases h2
      | ok s2 =>
        rw [hr] at h2
        have hk2 := processRecord_keysGood fullPath s s2 j
          (hgood line (List.mem_cons_self line rest) j hl) hk hr
        exact ih fullPath s2 s'
          (fun l hlm => hgood l (List.mem_cons_of_mem line hlm)) hk2 h2

/-! ## Serializer fuel stability -/

theorem entry_to_ncdu_zero (s : AState) (id : Nat) : entry_to_ncdu s 0 id = Json.null := rfl

theorem entry_to_ncdu_succ (s : AState) (fuel id : Nat) :
    entry_to_ncdu s (fuel + 1) id =
      match s.entries[id]? with
      | none => Json.null
      | some e =>
        if e.sub.isEmpty then
          Json.obj [("name", Json.str e.name), ("dsize", e.size)]
        else
          Json.arr (Json.obj [("name", Json.str e.name)] ::
            e.sub.map (entry_to_ncdu s fuel)) := rfl

/-- Past a well-formed store, the serializer's result does not depend on
the fuel, provided the fuel covers the remaining index range (children
have strictly larger indices, so `s.len - id` levels always suffice). -/
theorem entry_to_ncdu_fuel (s : AState)
    (hv : ∀ e ∈ s.entries, ∀ c ∈ e.sub, c < s.len) (hm : edgesMono s) :
    ∀ (f1 id f2 : Nat), s.len - id ≤ f1 → s.len - id ≤ f2 →
      entry_to_ncdu s f1 id = entry_to_ncdu s f2 id := by
  intro f1
  induction f1 with
  | zero =>
    intro id f2 h1 h2
    have hge : s.entries.length ≤ id := by
      simp only [AState.len] at h1
      omega
    rw [entry_to_ncdu_zero]
    cases f2 with
    | zero => rw [entry_to_ncdu_zero]
    | succ b =>
      rw [entry_to_ncdu_succ, List.getElem?_eq_none hge]
  | succ a ih =>
    intro id f2 h1 h2
    by_cases hid : id < s.entries.length
    · have hlen : 1 ≤ s.len - id := by
        simp only [AState.len]
        omega
      cases f2 with
      | zero => omega
      | succ b =>
        rw [entry_to_ncdu_succ, entry_to_ncdu_succ,
          List.getElem?_eq_getElem hid]
        set e := s.entries[id] with he
        show (if e.sub.isEmpty then Json.obj [("name", Json.str e.name), ("dsize", e.size)]
            else Json.arr (Json.obj [("name", Json.str e.name)] ::
              e.sub.map (entry_to_ncdu s a))) =
          (if e.sub.isEmpty then Json.obj [("name", Json.str e.name), ("dsize", e.size)]
            else Json.arr (Json.obj [("name", Json.str e.name)] ::
              e.sub.map (entry_to_ncdu s b)))
        by_cases hsub : e.sub.isEmpty
        · rw [if_pos hsub, if_pos hsub]
        · rw [if_neg hsub, if_neg hsub]
          have hmap : e.sub.map (entry_to_ncdu s a) = e.sub.map (entry_to_ncdu s b) := by
            apply List.map_congr_left
            intro c hc
            have hcm : c < s.len := hv e (List.getElem_mem hid) c hc
            have hcl : id < c := hm id e (List.getElem?_eq_getElem hid) c hc
            have hca : s.len - c ≤ a := by
              simp only [AState.len] at h1 hcm ⊢
              omega
            have hcb : s.len - c ≤ b := by
              simp only [AState.len] at h2 hcm ⊢
              omega
            exact ih c b hca hcb
          rw [hmap]
    · have hge : s.entries.length ≤ id := Nat.le_of_not_lt hid
      rw [entry_to_ncdu_succ, List.getElem?_eq_none hge]
      cases f2 with
      | zero => rw [entry_to_ncdu_zero]
      | succ b =>
        rw [entry_to_ncdu_succ, List.getElem?_eq_none hge]

/-! ## The verified claims -/

/-- Claim C4: running the builder and then the serializer on the single
input line for the top-level file `a.txt` of size 42 returns exactly the
document `[1, 1, \x7b\x7d, [\x7b"name": "/"\x7d, \x7b"name": "a.txt",
"dsize": 42\x7d]]` (in both addressing modes, which agree on a
top-level file). -/
theorem claim_C4 :
    analyze ["\x7b\"path\": \"a.txt\", \"type\": \"f\", \"size\": 42\x7d"] true =
      .ok (Json.arr [Json.num 1, Json.num 1, Json.obj [],
        Json.arr [Json.obj [("name", Json.str "/")],
          Json.obj [("name", Json.str "a.txt"), ("dsize", Json.num 42)]]]) ∧
    analyze ["\x7b\"path\": \"a.txt\", \"type\": \"f\", \"size\": 42\x7d"] false =
      .ok (Json.arr [Json.num 1, Json.num 1, Json.obj [],
        Json.arr [Json.obj [("name", Json.str "/")],
          Json.obj [("name", Json.str "a.txt"), ("dsize", Json.num 42)]]]) :=
  ⟨rfl, rfl⟩

/-- Claim C1, counterexample: in full-path mode, the single file record
for `x/y/z.txt` with no prior announcement of its ancestors does NOT
succeed — ancestor synthesis runs only for directory records, so the
parent lookup `self._fs_cache["x/y"]` raises `KeyError` and no document
is produced. -/
theorem claim_C1_cex :
    process_lines true initState
      ["\x7b\"path\": \"x/y/z.txt\", \"type\": \"f\", \"size\": 5\x7d"] =
      .error .keyError ∧
    analyze ["\x7b\"path\": \"x/y/z.txt\", \"type\": \"f\", \"size\": 5\x7d"] true =
      .error .keyError :=
  ⟨rfl, rfl⟩

/-- Claim C1, amended: in full-path mode, *directory* ancestor synthesis
never fails a parent lookup — `_process_new_dir_full_path` succeeds from
every state on every path (each loop step guarantees the next step's
parent prefix is cached). A file record does not synthesize ancestors;
with its parent directory announced first (one record for `x/y`), the
run succeeds and serializes to `/ → x → y → z.txt(dsize 5)` with `x`
and `y` emitted as name-only nodes. -/
theorem claim_C1 :
    (∀ (s : AState) (path : String), ∃ s', process_new_dir_full_path s path = .ok s') ∧
    analyze ["\x7b\"path\": \"x/y\", \"type\": \"d\", \"size\": 0\x7d",
        "\x7b\"path\": \"x/y/z.txt\", \"type\": \"f\", \"size\": 5\x7d"] true =
      .ok (Json.arr [Json.num 1, Json.num 1, Json.obj [],
        Json.arr [Json.obj [("name", Json.str "/")],
          Json.arr [Json.obj [("name", Json.str "x")],
            Json.arr [Json.obj [("name", Json.str "y")],
              Json.obj [("name", Json.str "z.txt"), ("dsize", Json.num 5)]]]]]) :=
  ⟨fun s path => process_new_dir_full_path_total s path, rfl⟩

/-- Claim C1, witness: the synthesis-totality part applied at a concrete
state and path. -/
theorem claim_C1_witness :
    ∃ s', process_new_dir_full_path initState "x/y" = .ok s' :=
  claim_C1.1 initState "x/y"

/-- Claim C9: a line that is not valid JSON halts processing at that
line — the lines after it are never consumed (the result does not
depend on them) — and no output document is produced. -/
theorem claim_C9 (fullPath : Bool) (pre : List String) (bad : String)
    (post : List String) (s1 : AState)
    (hpre : process_lines fullPath initState pre = .ok s1)
    (hbad : json_loads bad = none) :
    process_lines fullPath initState (pre ++ bad :: post) = .error .jsonError ∧
    analyze (pre ++ bad :: post) fullPath = .error .jsonError := by
  have h1 : process_lines fullPath initState (pre ++ bad :: post) =
      process_lines fullPath s1 (bad :: post) :=
    process_lines_append fullPath pre initState s1 (bad :: post) hpre
  have h2 : process_lines fullPath s1 (bad :: post) = .error .jsonError := by
    rw [process_lines_cons, hbad]
  refine ⟨h1.trans h2, ?_⟩
  unfold analyze
  rw [h1.trans h2]
  rfl

/-- Claim C9, witness: the truncated object `"\x7b"` is rejected by
`json_loads`, aborting the run before the following well-formed line. -/
theorem claim_C9_witness :
    process_lines true initState
        ("\x7b" :: ["\x7b\"path\": \"a.txt\", \"type\": \"f\", \"size\": 42\x7d"]) =
      .error .jsonError ∧
    analyze ("\x7b" :: ["\x7b\"path\": \"a.txt\", \"type\": \"f\", \"size\": 42\x7d"]) true =
      .error .jsonError :=
  claim_C9 true [] "\x7b" ["\x7b\"path\": \"a.txt\", \"type\": \"f\", \"size\": 42\x7d"]
    initState rfl rfl

/-- Claim C7: a record whose `path` field is the string `"."` is
skipped: the state is unchanged, and the run on `line :: rest` equals
the run on `rest` alone — so the record contributes no node to the
output, whatever its other fields hold (the `type` field must merely be
present, since the source reads it before the skip test). -/
theorem claim_C7 (fullPath : Bool) (s : AState) (l : String) (j typeJ : Json)
    (rest : List String) (hl : json_loads l = some j)
    (hp : jGet j "path" = .ok (Json.str ".")) (ht : jGet j "type" = .ok typeJ) :
    processRecord fullPath s j = .ok s ∧
    process_lines fullPath s (l :: rest) = process_lines fullPath s rest := by
  have hskip := processRecord_dot fullPath s j (Json.str ".") typeJ hp ht rfl
  refine ⟨hskip, ?_⟩
  rw [process_lines_cons, hl]
  show (match processRecord fullPath s j with
    | .ok s' => process_lines fullPath s' rest
    | .error e => .error e) = process_lines fullPath s rest
  rw [hskip]

/-- Claim C7, witness: a concrete `"."` record (with a non-directory
`type` and no `size` field at all) is skipped. -/
theorem claim_C7_witness :
    processRecord true initState
        (Json.obj [("path", Json.str "."), ("type", Json.str "x")]) =
      .ok initState ∧
    process_lines true initState
        ("\x7b\"path\": \".\", \"type\": \"x\"\x7d" ::
          ["\x7b\"path\": \"a.txt\", \"type\": \"f\", \"size\": 42\x7d"]) =
      process_lines true initState
        ["\x7b\"path\": \"a.txt\", \"type\": \"f\", \"size\": 42\x7d"] :=
  claim_C7 true initState "\x7b\"path\": \".\", \"type\": \"x\"\x7d"
    (Json.obj [("path", Json.str "."), ("type", Json.str "x")]) (Json.str "x")
    ["\x7b\"path\": \"a.txt\", \"type\": \"f\", \"size\": 42\x7d"] rfl rfl rfl

/-- Claim C2, counterexample: in full-path mode, announcing the same
directory path `a/b` twice explicitly (with parent `a` already indexed
both times) creates TWO Entries for `a/b` — both appended as children
of `a` — and writes the Path Index twice (the final binding points at
the second Entry). -/
theorem claim_C2_cex :
    process_lines true initState
      ["\x7b\"path\": \"a\", \"type\": \"d\", \"size\": 0\x7d",
       "\x7b\"path\": \"a/b\", \"type\": \"d\", \"size\": 0\x7d",
       "\x7b\"path\": \"a/b\", \"type\": \"d\", \"size\": 0\x7d"] =
      .ok ⟨[⟨"a", Json.num 0, [1, 2]⟩, ⟨"b", Json.num 0, []⟩, ⟨"b", Json.num 0, []⟩],
        [0], [("a", 0), ("a/b", 2)]⟩ := rfl

/-- Claim C2, amended: duplicate announcements are idempotent exactly
when the re-announcement is handled by ancestor synthesis: a successful
`_process_new_dir_full_path` run leaves every existing Path-Index
binding unchanged (already-indexed prefixes are skipped), so the path
keeps its single Entry. A duplicate *explicit* directory record whose
parent is already indexed instead creates a fresh Entry and overwrites
the binding (see the counterexample). Concretely, announcing `a/b` and
then `a/b/c/dd` (whose synthesis re-visits `a/b`) leaves exactly one
Entry for `a/b`. -/
theorem claim_C2 :
    (∀ (s s' : AState) (path q : String), q ∈ keysList s →
      process_new_dir_full_path s path = .ok s' →
      s'.cacheFind q = s.cacheFind q) ∧
    process_lines true initState
      ["\x7b\"path\": \"a/b\", \"type\": \"d\", \"size\": 0\x7d",
       "\x7b\"path\": \"a/b/c/dd\", \"type\": \"d\", \"size\": 0\x7d"] =
      .ok ⟨[⟨"a", Json.num 0, [1]⟩, ⟨"b", Json.num 0, [2]⟩,
          ⟨"c", Json.num 0, [3]⟩, ⟨"dd", Json.num 0, []⟩],
        [0], [("a", 0), ("a/b", 1), ("a/b/c", 2), ("a/b/c/dd", 3)]⟩ :=
  ⟨fun s s' _ q hq h => processPathParts_readStable _ s s' h q hq, rfl⟩

/-- Claim C2, witness: synthesizing `a/b` over a state that already
indexes `a` leaves the binding of `a` unchanged. -/
theorem claim_C2_witness :
    (AState.mk [⟨"a", Json.num 0, [1]⟩, ⟨"b", Json.num 0, []⟩] [0]
        [("a", 0), ("a/b", 1)]).cacheFind "a" =
      (AState.mk [⟨"a", Json.num 0, []⟩] [0] [("a", 0)]).cacheFind "a" :=
  claim_C2.1 (AState.mk [⟨"a", Json.num 0, []⟩] [0] [("a", 0)])
    (AState.mk [⟨"a", Json.num 0, [1]⟩, ⟨"b", Json.num 0, []⟩] [0]
      [("a", 0), ("a/b", 1)])
    "a/b" "a" (by decide) rfl

/-- Claim C3, counterexample: a directory record for `a/b` carrying
declared size 7, processed while its parent `a` is already indexed,
creates the Entry for `a/b` with size 7, not 0 — the declared size is
NOT ignored in the parent-already-indexed branch. -/
theorem claim_C3_cex :
    process_lines true initState
      ["\x7b\"path\": \"a\", \"type\": \"d\", \"size\": 0\x7d",
       "\x7b\"path\": \"a/b\", \"type\": \"d\", \"size\": 7\x7d"] =
      .ok ⟨[⟨"a", Json.num 0, [1]⟩, ⟨"b", Json.num 7, []⟩],
        [0], [("a", 0), ("a/b", 1)]⟩ := rfl

/-- Claim C3, amended: directory Entries created by ancestor synthesis
have size 0 in both modes (full-path synthesis allocates only size-0
entries; per-dataset creates a single size-0 entry); but in the
parent-already-indexed branch the registered Entry carries the record's
declared size (observable in the output only when that directory ends
with no children). -/
theorem claim_C3 :
    (∀ (s s' : AState) (path : String) (i : Nat) (e' : FSEntry),
      process_new_dir_full_path s path = .ok s' →
      s.len ≤ i → s'.entries[i]? = some e' → e'.size = Json.num 0) ∧
    (∀ (s : AState) (path : String),
      (process_new_dir_dataset s path).entries[s.len]? =
        some ⟨basename path, Json.num 0, []⟩) ∧
    (∀ (fullPath : Bool) (s : AState) (j pathJ typeJ sizeJ : Json)
        (path : String) (pid : Nat),
      jGet j "path" = .ok pathJ → jGet j "type" = .ok typeJ →
      isStrEq pathJ "." = false → jGet j "size" = .ok sizeJ →
      asStr pathJ = .ok path → isStrEq typeJ "d" = true →
      s.cacheFind (dirname path) = some pid →
      processRecord fullPath s j =
        .ok (((s.alloc ⟨basename path, sizeJ, []⟩).1.add_entry pid
          s.len).cacheSet path s.len)) := by
  refine ⟨?_, ?_, ?_⟩
  · intro s s' path i e' h hi hgot
    rcases processPathParts_sizes _ s s' h i e' hgot with ⟨e, he, _⟩ | hz
    · rw [List.getElem?_eq_none (by simp only [AState.len] at hi; omega)] at he
      cases he
    · exact hz
  · intro s path
    show (s.entries ++ [FSEntry.from_filename path (Json.num 0)])[s.entries.length]? = _
    rw [List.getElem?_concat_length]
    rfl
  · intro fullPath s j pathJ typeJ sizeJ path pid hp ht hdot hz hs hdir hcf
    rw [processRecord_not_dot fullPath s j pathJ typeJ sizeJ path hp ht hdot hz hs,
      if_pos hdir, hcf]
    rfl

/-- Claim C3, witness: the three parts applied at concrete inputs — a
fresh synthesis of `a/b` creating the size-0 entry at index 1, the
dataset entry for `data1`, and a directory record for `a/b` with
declared size 7 processed over a state that already indexes `a`. -/
theorem claim_C3_witness :
    ((⟨"b", Json.num 0, []⟩ : FSEntry).size = Json.num 0) ∧
    ((process_new_dir_dataset initState "data1").entries[initState.len]? =
      some ⟨basename "data1", Json.num 0, []⟩) ∧
    processRecord true (AState.mk [⟨"a", Json.num 0, []⟩] [0] [("a", 0)])
        (Json.obj [("path", Json.str "a/b"), ("type", Json.str "d"),
          ("size", Json.num 7)]) =
      .ok ((((AState.mk [⟨"a", Json.num 0, []⟩] [0] [("a", 0)]).alloc
          ⟨basename "a/b", Json.num 7, []⟩).1.add_entry 0
        (AState.mk [⟨"a", Json.num 0, []⟩] [0] [("a", 0)]).len).cacheSet "a/b"
        (AState.mk [⟨"a", Json.num 0, []⟩] [0] [("a", 0)]).len) :=
  ⟨claim_C3.1 (AState.mk [⟨"a", Json.num 0, []⟩] [0] [("a", 0)])
      (AState.mk [⟨"a", Json.num 0, [1]⟩, ⟨"b", Json.num 0, []⟩] [0]
        [("a", 0), ("a/b", 1)]) "a/b" 1 ⟨"b", Json.num 0, []⟩ rfl (by decide) rfl,
   claim_C3.2.1 initState "data1",
   claim_C3.2.2 true (AState.mk [⟨"a", Json.num 0, []⟩] [0] [("a", 0)])
     (Json.obj [("path", Json.str "a/b"), ("type", Json.str "d"),
       ("size", Json.num 7)])
     (Json.str "a/b") (Json.str "d") (Json.num 7) "a/b" 0
     rfl rfl rfl rfl rfl rfl rfl⟩

/-- Claim C8: in per-dataset mode, a directory record whose parent path
is not indexed creates exactly one Entry for the full path (no prefix
decomposition), indexes it under the full path, and appends it to the
Root List; two such records for `data1` and `data2` yield two separate
root entries that are never merged. -/
theorem claim_C8 :
    (∀ (s : AState) (j pathJ typeJ sizeJ : Json) (path : String),
      jGet j "path" = .ok pathJ → jGet j "type" = .ok typeJ →
      isStrEq pathJ "." = false → jGet j "size" = .ok sizeJ →
      asStr pathJ = .ok path → isStrEq typeJ "d" = true →
      s.cacheFind (dirname path) = none →
      processRecord false s j =
        .ok ⟨s.entries ++ [⟨basename path, Json.num 0, []⟩],
          s.rootObjects ++ [s.len], cacheWrite s.fsCache path s.len⟩) ∧
    process_lines false initState
      ["\x7b\"path\": \"data1\", \"type\": \"d\", \"size\": 0\x7d",
       "\x7b\"path\": \"data2\", \"type\": \"d\", \"size\": 0\x7d"] =
      .ok ⟨[⟨"data1", Json.num 0, []⟩, ⟨"data2", Json.num 0, []⟩],
        [0, 1], [("data1", 0), ("data2", 1)]⟩ := by
  constructor
  · intro s j pathJ typeJ sizeJ path hp ht hdot hz hs hdir hcf
    rw [processRecord_not_dot false s j pathJ typeJ sizeJ path hp ht hdot hz hs,
      if_pos hdir, hcf]
    rfl
  · rfl

/-- Claim C8, witness: the per-dataset branch applied to the `data1`
record over the fresh analyzer. -/
theorem claim_C8_witness :
    processRecord false initState
        (Json.obj [("path", Json.str "data1"), ("type", Json.str "d"),
          ("size", Json.num 0)]) =
      .ok ⟨initState.entries ++ [⟨basename "data1", Json.num 0, []⟩],
        initState.rootObjects ++ [initState.len],
        cacheWrite initState.fsCache "data1" initState.len⟩ :=
  claim_C8.1 initState
    (Json.obj [("path", Json.str "data1"), ("type", Json.str "d"),
      ("size", Json.num 0)])
    (Json.str "data1") (Json.str "d") (Json.num 0) "data1"
    rfl rfl rfl rfl rfl rfl rfl

/-- Claim C10, counterexample: the record path `"/a"` is a non-empty
string, yet full-path synthesis decomposes it into the prefixes `""`
and `"/a"` and inserts the empty string as a Path-Index key (with a
nameless root entry). -/
theorem claim_C10_cex :
    process_lines true initState
      ["\x7b\"path\": \"/a\", \"type\": \"d\", \"size\": 0\x7d"] =
      .ok ⟨[⟨"", Json.num 0, []⟩, ⟨"a", Json.num 0, []⟩], [0, 1],
        [("", 0), ("/a", 1)]⟩ ∧
    "" ∈ keysList ⟨[⟨"", Json.num 0, []⟩, ⟨"a", Json.num 0, []⟩], [0, 1],
      [("", 0), ("/a", 1)]⟩ :=
  ⟨rfl, by decide⟩

/-- Claim C10, amended: provided every record's path is a non-empty
string that does not begin with the separator `'/'`, the empty string
is never a key of the Path Index in either addressing mode;
consequently a record whose `parent_dir` is empty never takes the
parent-already-indexed branch, so a top-level directory record always
routes to ancestor synthesis (`self._process_new_dir`). -/
theorem claim_C10 :
    (∀ (lines : List String) (fullPath : Bool) (s : AState),
      (∀ l ∈ lines, ∀ j, json_loads l = some j →
        ∀ pathJ, jGet j "path" = .ok pathJ →
        ∀ p, asStr pathJ = .ok p → goodPath p) →
      process_lines fullPath initState lines = .ok s → "" ∉ keysList s) ∧
    (∀ (fullPath : Bool) (s : AState) (j pathJ typeJ sizeJ : Json) (path : String),
      jGet j "path" = .ok pathJ → jGet j "type" = .ok typeJ →
      isStrEq pathJ "." = false → jGet j "size" = .ok sizeJ →
      asStr pathJ = .ok path → isStrEq typeJ "d" = true →
      "" ∉ keysList s → dirname path = "" →
      processRecord fullPath s j = processNewDir fullPath s path) := by
  constructor
  · intro lines fullPath s hgood h hmem
    refine process_lines_keysGood lines fullPath initState s hgood ?_ h "" hmem rfl
    intro k hk
    simp [initState, keysList] at hk
  · intro fullPath s j pathJ typeJ sizeJ path hp ht hdot hz hs hdir hkeys hpd
    rw [processRecord_not_dot fullPath s j pathJ typeJ sizeJ path hp ht hdot hz hs,
      if_pos hdir]
    have hcf : s.cacheFind (dirname path) = none := by
      rw [hpd]
      cases hc : s.cacheFind "" with
      | none => rfl
      | some v => exact absurd (mem_of_cacheRead_some _ _ _ hc) hkeys
    rw [hcf]

/-- Claim C10, witness: a run over the single clean record `a` leaves no
empty key, and a top-level directory record over a fresh analyzer
routes to `self._process_new_dir`. -/
theorem claim_C10_witness :
    "" ∉ keysList (AState.mk [⟨"a", Json.num 0, []⟩] [0] [("a", 0)]) ∧
    processRecord true initState
        (Json.obj [("path", Json.str "a"), ("type", Json.str "d"),
          ("size", Json.num 0)]) =
      processNewDir true initState "a" := by
  constructor
  · refine claim_C10.1 ["\x7b\"path\": \"a\", \"type\": \"d\", \"size\": 0\x7d"]
      true (AState.mk [⟨"a", Json.num 0, []⟩] [0] [("a", 0)]) ?_ rfl
    intro l hl j hj pathJ hp p hsp
    rw [List.mem_singleton] at hl
    subst hl
    rw [show json_loads "\x7b\"path\": \"a\", \"type\": \"d\", \"size\": 0\x7d" =
      some (Json.obj [("path", Json.str "a"), ("type", Json.str "d"),
        ("size", Json.num 0)]) from rfl] at hj
    have hj2 := Option.some.inj hj
    subst hj2
    rw [show jGet (Json.obj [("path", Json.str "a"), ("type", Json.str "d"),
      ("size", Json.num 0)]) "path" = .ok (Json.str "a") from rfl] at hp
    have hp2 := Except.ok.inj hp
    subst hp2
    have hsp2 := Except.ok.inj hsp
    subst hsp2
    exact ⟨by decide, by decide⟩
  · exact claim_C10.2 true initState
      (Json.obj [("path", Json.str "a"), ("type", Json.str "d"),
        ("size", Json.num 0)])
      (Json.str "a") (Json.str "d") (Json.num 0) "a"
      rfl rfl rfl rfl rfl rfl (by decide) rfl

/-- Claim C5: after any successful run in either mode, every Entry that
is not in the Root List occurs exactly once in the children sequences —
and in exactly one parent, since its total occurrence count over the
whole store is 1; no Entry occurs more than once overall (no sharing
between parents); and every child's store index strictly exceeds its
parent's, so the children relation has no cycles. -/
theorem claim_C5 (lines : List String) (fullPath : Bool) (s : AState)
    (h : process_lines fullPath initState lines = .ok s) :
    (∀ id, id < s.len → id ∉ s.rootObjects → childCount s id = 1) ∧
    (∀ id, childCount s id ≤ 1) ∧
    (∀ (p : Nat) (e : FSEntry), s.entries[p]? = some e → ∀ c ∈ e.sub, p < c) := by
  have hWF := process_lines_wf lines fullPath initState s stateWF_init h
  obtain ⟨⟨hcv, hrv, hsv⟩, hmono, hcnt⟩ := hWF
  refine ⟨fun id hid hnr => (hcnt id hid).2 hnr, ?_, hmono⟩
  intro id
  by_cases hid : id < s.len
  · by_cases hr : id ∈ s.rootObjects
    · have := (hcnt id hid).1 hr
      omega
    · have := (hcnt id hid).2 hr
      omega
  · have hz : childCount s id = 0 := by
      rw [childCount_eq_lcc]
      exact lcc_zero_of_lt s.entries s.len id hsv (Nat.le_of_not_lt hid)
    omega

/-- Claim C5, witness: the tree property instantiated on the single-file
run. -/
theorem claim_C5_witness :
    (∀ id, id < (AState.mk [⟨"a.txt", Json.num 42, []⟩] [0] [("a.txt", 0)]).len →
      id ∉ (AState.mk [⟨"a.txt", Json.num 42, []⟩] [0] [("a.txt", 0)]).rootObjects →
      childCount (AState.mk [⟨"a.txt", Json.num 42, []⟩] [0] [("a.txt", 0)]) id = 1) ∧
    (∀ id, childCount (AState.mk [⟨"a.txt", Json.num 42, []⟩] [0] [("a.txt", 0)]) id ≤ 1) ∧
    (∀ (p : Nat) (e : FSEntry),
      (AState.mk [⟨"a.txt", Json.num 42, []⟩] [0] [("a.txt", 0)]).entries[p]? = some e →
      ∀ c ∈ e.sub, p < c) :=
  claim_C5 ["\x7b\"path\": \"a.txt\", \"type\": \"f\", \"size\": 42\x7d"] true
    (AState.mk [⟨"a.txt", Json.num 42, []⟩] [0] [("a.txt", 0)]) rfl

/-- Claim C6: for every store satisfying the tree invariants, the
serializer emits a childless Entry as the flat object
`\x7b"name": n, "dsize": s\x7d`, an Entry with children as the array
`[\x7b"name": n\x7d, c1, ..., ck]` with the children serialized in
append (first-seen) order regardless of the Entry's own size, and the
whole document as `[1, 1, \x7b\x7d, [\x7b"name": "/"\x7d, r1, ..., rm]]`
with root entries in first-seen order and the two leading integers and
the empty object fixed constants. -/
theorem claim_C6 (s : AState)
    (hv : ∀ e ∈ s.entries, ∀ c ∈ e.sub, c < s.len) (hm : edgesMono s) :
    (∀ (id : Nat) (e : FSEntry), s.entries[id]? = some e → e.sub = [] →
      entry_to_ncdu s s.len id =
        Json.obj [("name", Json.str e.name), ("dsize", e.size)]) ∧
    (∀ (id : Nat) (e : FSEntry), s.entries[id]? = some e → e.sub ≠ [] →
      entry_to_ncdu s s.len id =
        Json.arr (Json.obj [("name", Json.str e.name)] ::
          e.sub.map (entry_to_ncdu s s.len))) ∧
    generate_ncdu_tree s = Json.arr [Json.num 1, Json.num 1, Json.obj [],
      Json.arr (Json.obj [("name", Json.str "/")] ::
        s.rootObjects.map (entry_to_ncdu s s.len))] := by
  refine ⟨?_, ?_, rfl⟩
  · intro id e hid hsub
    obtain ⟨k, hk⟩ : ∃ k, s.len = k + 1 := by
      have := (List.getElem?_eq_some.mp hid).1
      simp only [AState.len]
      exact ⟨s.entries.length - 1, by omega⟩
    rw [hk, entry_to_ncdu_succ, hid]
    show (if e.sub.isEmpty then Json.obj [("name", Json.str e.name), ("dsize", e.size)]
        else Json.arr (Json.obj [("name", Json.str e.name)] ::
          e.sub.map (entry_to_ncdu s k))) = _
    rw [if_pos (by rw [hsub]; rfl)]
  · intro id e hid hsub
    have hidlt := (List.getElem?_eq_some.mp hid).1
    obtain ⟨k, hk⟩ : ∃ k, s.len = k + 1 := by
      simp only [AState.len]
      exact ⟨s.entries.length - 1, by omega⟩
    have hne : e.sub.isEmpty = false := by
      cases hsubl : e.sub with
      | nil => exact absurd hsubl hsub
      | cons a t => rfl
    have hmap : e.sub.map (entry_to_ncdu s k) = e.sub.map (entry_to_ncdu s s.len) := by
      apply List.map_congr_left
      intro c hc
      have hcm : c < s.len := hv e (List.getElem?_mem hid) c hc
      have hcl : id < c := hm id e hid c hc
      refine entry_to_ncdu_fuel s hv hm k c s.len ?_ ?_
      · omega
      · omega
    rw [hk, entry_to_ncdu_succ, hid]
    show (if e.sub.isEmpty then Json.obj [("name", Json.str e.name), ("dsize", e.size)]
        else Json.arr (Json.obj [("name", Json.str e.name)] ::
          e.sub.map (entry_to_ncdu s k))) = _
    rw [if_neg (by rw [hne]; exact fun hx => Bool.noConfusion hx), ← hk, hmap]

/-- Claim C6, witness: the serializer shape at the concrete store built
from `x/y` and `x/y/z.txt` (entry 1, the internal node `y` whose own
size is 0 but irrelevant; entry 2, the leaf `z.txt`). -/
theorem claim_C6_witness :
    (∀ (id : Nat) (e : FSEntry),
      (AState.mk [⟨"x", Json.num 0, [1]⟩, ⟨"y", Json.num 0, [2]⟩,
        ⟨"z.txt", Json.num 5, []⟩] [0]
        [("x", 0), ("x/y", 1)]).entries[id]? = some e → e.sub = [] →
      entry_to_ncdu (AState.mk [⟨"x", Json.num 0, [1]⟩, ⟨"y", Json.num 0, [2]⟩,
        ⟨"z.txt", Json.num 5, []⟩] [0] [("x", 0), ("x/y", 1)])
        (AState.mk [⟨"x", Json.num 0, [1]⟩, ⟨"y", Json.num 0, [2]⟩,
          ⟨"z.txt", Json.num 5, []⟩] [0] [("x", 0), ("x/y", 1)]).len id =
        Json.obj [("name", Json.str e.name), ("dsize", e.size)]) ∧
    (∀ (id : Nat) (e : FSEntry),
      (AState.mk [⟨"x", Json.num 0, [1]⟩, ⟨"y", Json.num 0, [2]⟩,
        ⟨"z.txt", Json.num 5, []⟩] [0]
        [("x", 0), ("x/y", 1)]).entries[id]? = some e → e.sub ≠ [] →
      entry_to_ncdu (AState.mk [⟨"x", Json.num 0, [1]⟩, ⟨"y", Json.num 0, [2]⟩,
        ⟨"z.txt", Json.num 5, []⟩] [0] [("x", 0), ("x/y", 1)])
        (AState.mk [⟨"x", Json.num 0, [1]⟩, ⟨"y", Json.num 0, [2]⟩,
          ⟨"z.txt", Json.num 5, []⟩] [0] [("x", 0), ("x/y", 1)]).len id =
        Json.arr (Json.obj [("name", Json.str e.name)] ::
          e.sub.map (entry_to_ncdu (AState.mk [⟨"x", Json.num 0, [1]⟩,
            ⟨"y", Json.num 0, [2]⟩, ⟨"z.txt", Json.num 5, []⟩] [0]
            [("x", 0), ("x/y", 1)])
            (AState.mk [⟨"x", Json.num 0, [1]⟩, ⟨"y", Json.num 0, [2]⟩,
              ⟨"z.txt", Json.num 5, []⟩] [0] [("x", 0), ("x/y", 1)]).len))) ∧
    generate_ncdu_tree (AState.mk [⟨"x", Json.num 0, [1]⟩, ⟨"y", Json.num 0, [2]⟩,
        ⟨"z.txt", Json.num 5, []⟩] [0] [("x", 0), ("x/y", 1)]) =
      Json.arr [Json.num 1, Json.num 1, Json.obj [],
        Json.arr (Json.obj [("name", Json.str "/")] ::
          (AState.mk [⟨"x", Json.num 0, [1]⟩, ⟨"y", Json.num 0, [2]⟩,
            ⟨"z.txt", Json.num 5, []⟩] [0]
            [("x", 0), ("x/y", 1)]).rootObjects.map
            (entry_to_ncdu (AState.mk [⟨"x", Json.num 0, [1]⟩,
              ⟨"y", Json.num 0, [2]⟩, ⟨"z.txt", Json.num 5, []⟩] [0]
              [("x", 0), ("x/y", 1)])
              (AState.mk [⟨"x", Json.num 0, [1]⟩, ⟨"y", Json.num 0, [2]⟩,
                ⟨"z.txt", Json.num 5, []⟩] [0] [("x", 0), ("x/y", 1)]).len))] := by
  refine claim_C6 _ (by decide) ?_
  intro p e hp c hc
  match p, hp with
  | 0, hp =>
    have hp' : some (⟨"x", Json.num 0, [1]⟩ : FSEntry) = some e := hp
    cases hp'
    simp only [List.mem_singleton] at hc
    omega
  | 1, hp =>
    have hp' : some (⟨"y", Json.num 0, [2]⟩ : FSEntry) = some e := hp
    cases hp'
    simp only [List.mem_singleton] at hc
    omega
  | 2, hp =>
    have hp' : some (⟨"z.txt", Json.num 5, []⟩ : FSEntry) = some e := hp
    cases hp'
    simp at hc
  | (n + 3), hp =>
    rw [List.getElem?_eq_none (by simp)] at hp
    cases hp
